import Mathlib

/-!
# miniupnpd `pf/pfpinhole.c`: pinhole lifecycle over a pf anchor

A shallow embedding of `add_pinhole`, `find_pinhole`, `delete_pinhole`,
`get_pinhole_info`, `update_pinhole` and `clean_pinhole_list`, together with
the C library routines they rely on (`snprintf`, `sscanf`, `strchr`, `strsep`,
`strtok`, `strlcpy`) and a model of the pf rule list behind the ioctl
interface.

Conventions.
* A C string is the list of its characters before the terminating NUL.
* C `int` is 32 bits wide, two's complement; arithmetic on it is taken
  modulo `2^32` (`toInt32`).  `unsigned int` is a natural number below `2^32`,
  `unsigned short` one below `2^16`.
* `PF_RULE_LABEL_SIZE` comes from the system header `net/pfvar.h`; it is a
  parameter of the model (`Config.PF_RULE_LABEL_SIZE`), as are the build
  option `PF_NEWSTYLE` and the libc routine `inet_pton`.
* The kernel side is a list of rules with the ticket of the active rule set;
  every ioctl may in addition fail for a reason of its own, as scripted by
  `State.faults`.
* `find_pinhole` reads its locals `saddr` and `daddr` without having set them
  when `inet_pton` fails; their indeterminate contents are arguments of the
  model.
-/

namespace PfPinhole

/-! ## Machine integers -/

/-- Conversion to C `int`: reduction modulo `2^32` into `[-2^31, 2^31)`. -/
def toInt32 (x : Int) : Int := (x + 2147483648) % 4294967296 - 2147483648

/-- Conversion to C `unsigned int`. -/
def toUInt32 (x : Int) : Nat := (x % 4294967296).toNat

/-- Conversion to C `unsigned short`. -/
def toUInt16 (x : Nat) : Nat := x % 65536

/-- Mirror of `INT_MAX`. -/
def INT_MAX : Int := 2147483647

/-- Mirror of `UINT_MAX`. -/
def UINT_MAX : Nat := 4294967295

/-! ## Formatted output -/

/-- The decimal digit character of `d` (for `d < 10`). -/
def digitChar (d : Nat) : Char := Char.ofNat (48 + d)

/-- Decimal digits of `n`, most significant first, pushed in front of `acc`. -/
def utoa_aux : Nat → Nat → List Char → List Char
  | 0, _, acc => acc
  | fuel + 1, n, acc =>
    if n < 10 then digitChar n :: acc
    else utoa_aux fuel (n / 10) (digitChar (n % 10) :: acc)

/-- Output of the `%u` (and `%hu`) conversion. -/
def fmt_u (n : Nat) : List Char := utoa_aux (n + 1) n []

/-- Output of the `%d` conversion. -/
def fmt_d (x : Int) : List Char :=
  if x < 0 then '-' :: fmt_u (-x).toNat else fmt_u x.toNat

/-- Text produced by the format `PINEHOLE_LABEL_FORMAT`, i.e.
`"pinhole-%d ts-%u: %s"`, before any truncation. -/
def PINEHOLE_LABEL_FORMAT (uid : Int) (timestamp : Nat) (desc : List Char) : List Char :=
  "pinhole-".toList ++ fmt_d uid ++ " ts-".toList ++ fmt_u timestamp ++ ": ".toList ++ desc

/-- The part of the label in front of the description: `"pinhole-%d ts-%u: "`. -/
def label_front (uid : Int) (timestamp : Nat) : List Char :=
  "pinhole-".toList ++ fmt_d uid ++ " ts-".toList ++ fmt_u timestamp ++ ": ".toList

/-- What `snprintf(buf, size, ...)` leaves in `buf` when the untruncated output
is `full`: at most `size - 1` characters (and nothing when `size` is 0). -/
def snprintf (size : Nat) (full : List Char) : List Char := full.take (size - 1)

/-- What `strlcpy(dst, src, size)` leaves in `dst`: at most `size - 1`
characters of `src`; `dst` is untouched when `size` is 0. -/
def strlcpy (dst src : List Char) (size : Nat) : List Char :=
  if size = 0 then dst else src.take (size - 1)

/-! ## Formatted input -/

/-- C `isspace` in the "C" locale. -/
def isspace (c : Char) : Bool :=
  c = ' ' || c = '\t' || c = '\n' || c = '\x0b' || c = '\x0c' || c = '\r'

/-- C `isdigit`. -/
def isdigit (c : Char) : Bool := decide (48 ≤ c.toNat) && decide (c.toNat ≤ 57)

/-- Skip leading white space, as every numeric conversion and every white-space
directive of `sscanf` does. -/
def skip_space : List Char → List Char
  | [] => []
  | c :: cs => if isspace c then skip_space cs else c :: cs

/-- Accumulate a run of decimal digits; returns the value and the unread rest. -/
def scan_digits (acc : Nat) : List Char → Nat × List Char
  | [] => (acc, [])
  | c :: cs => if isdigit c then scan_digits (acc * 10 + (c.toNat - 48)) cs else (acc, c :: cs)

/-- Outcome of reading the subject sequence of an integer conversion. -/
inductive Subject where
  /-- End of input before any character of the number: an input failure. -/
  | eof : Subject
  /-- No digit where one is required: a matching failure. -/
  | nomatch : Subject
  /-- A number: sign, magnitude, unread rest. -/
  | num (neg : Bool) (mag : Nat) (rest : List Char) : Subject
deriving DecidableEq

/-- The subject sequence of `%d` / `%u`: optional white space, an optional sign,
then at least one decimal digit. -/
def scan_subject (s : List Char) : Subject :=
  match skip_space s with
  | [] => .eof
  | c :: cs =>
    let neg := decide (c = '-')
    let body := if c = '-' ∨ c = '+' then cs else c :: cs
    match body with
    | [] => .nomatch
    | d :: ds =>
      if isdigit d then
        let r := scan_digits 0 (d :: ds)
        .num neg r.1 r.2
      else .nomatch

/-- Value stored by `%d`: the BSD libc converts with `strtoimax`, which clamps
to the `intmax_t` range, and then assigns to the `int`. -/
def conv_d (neg : Bool) (mag : Nat) : Int :=
  let v : Int := if neg then -(mag : Int) else (mag : Int)
  let clamped : Int :=
    if v < -9223372036854775808 then -9223372036854775808
    else if 9223372036854775807 < v then 9223372036854775807 else v
  toInt32 clamped

/-- Value stored by `%u`: `strtoumax` (which saturates at `UINTMAX_MAX` and
negates modulo `2^64` after a minus sign), then assignment to `unsigned int`. -/
def conv_u (neg : Bool) (mag : Nat) : Nat :=
  let v : Nat :=
    if 18446744073709551615 < mag then 18446744073709551615
    else if neg then (18446744073709551616 - mag) % 18446744073709551616 else mag
  v % 4294967296

/-- Match the literal (non white space) characters `lit` of a format against
the input: the unread rest on success. -/
def match_literal : List Char → List Char → Option (List Char)
  | [], s => some s
  | _ :: _, [] => none
  | l :: ls, c :: cs => if l = c then match_literal ls cs else none

/-- Result of a `sscanf` call with two assigning conversions. -/
inductive Scan where
  /-- Returned `EOF`: input ended before the first conversion. -/
  | eof : Scan
  /-- Returned 0. -/
  | none : Scan
  /-- Returned 1; the first variable was assigned. -/
  | one (uid : Int) : Scan
  /-- Returned 2; both variables were assigned. -/
  | two (uid : Int) (ts : Nat) : Scan
deriving DecidableEq

/-- The value `sscanf` returns. -/
def Scan.ret : Scan → Int
  | .eof => -1
  | .none => 0
  | .one _ => 1
  | .two _ _ => 2

/-- The call `sscanf(label, PINEHOLE_LABEL_FORMAT_SKIPDESC, &uid, &ts)` with
format `"pinhole-%d ts-%u: %*s"`.  Input that ends inside `pinhole-` or in
front of the first number gives `EOF`; any other failure returns the number of
values assigned so far.  The directives after `%u` assign nothing, so whatever
follows the timestamp has no influence on the result. -/
def sscanf_SKIPDESC (label : List Char) : Scan :=
  match match_literal "pinhole-".toList label with
  | Option.none => if label.isPrefixOf "pinhole-".toList then .eof else .none
  | some s1 =>
    match scan_subject s1 with
    | .eof => .eof
    | .nomatch => .none
    | .num neg mag s2 =>
      let uid := conv_d neg mag
      match match_literal "ts-".toList (skip_space s2) with
      | Option.none => .one uid
      | some s3 =>
        match scan_subject s3 with
        | .eof => .one uid
        | .nomatch => .one uid
        | .num neg2 mag2 _ => .two uid (conv_u neg2 mag2)

/-- The call `sscanf(p, "ts-%u", timestamp)` of `get_pinhole_info`: the new
content of `*timestamp`. -/
def sscanf_ts (p : List Char) (timestamp : Nat) : Nat :=
  match match_literal "ts-".toList p with
  | Option.none => timestamp
  | some s =>
    match scan_subject s with
    | .num neg mag _ => conv_u neg mag
    | _ => timestamp

/-! ## String searching -/

/-- The call `strchr(s, c)`: the suffix of `s` starting at the first `c`. -/
def strchr (s : List Char) (c : Char) : Option (List Char) :=
  match s with
  | [] => none
  | x :: xs => if x = c then some (x :: xs) else strchr xs c

/-- The call `strsep(&p, " ")` on a non-null `p`: the token in front of the
first blank and the new value of `p` (`none` for `NULL`, when there is no
blank). -/
def strsep_space : List Char → List Char × Option (List Char)
  | [] => ([], none)
  | c :: cs =>
    if c = ' ' then ([], some cs)
    else ((c :: (strsep_space cs).1), (strsep_space cs).2)

/-- Content of `tmp_label` after `strtok(tmp_label, " ")`: leading blanks are
skipped, and the first blank after the first token is overwritten by NUL. -/
def strtok_space : List Char → List Char
  | [] => []
  | c :: cs => if c = ' ' then c :: strtok_space cs else (strsep_space (c :: cs)).1

/-! ## The pf rule store

Rule numbers and loop counters are far below `2^31` for any anchor that fits
in memory; they are modelled as natural numbers without wrap-around. -/

/-- Mirror of `PF_IN` (`enum { PF_INOUT, PF_IN, PF_OUT }`). -/
def PF_IN : Nat := 1
/-- Mirror of `PF_PASS`. -/
def PF_PASS : Nat := 0
/-- Mirror of `PF_OP_EQ` (`enum { PF_OP_NONE, PF_OP_IRG, PF_OP_EQ, ... }`). -/
def PF_OP_EQ : Nat := 2
/-- Mirror of `PF_ADDR_ADDRMASK`, the first member of its enumeration. -/
def PF_ADDR_ADDRMASK : Nat := 0
/-- Mirror of `TH_SYN`. -/
def TH_SYN : Nat := 2
/-- Mirror of `TH_ACK`. -/
def TH_ACK : Nat := 16
/-- An IPv6 mask of sixteen bytes 255. -/
def MASK_ALL_ONES : Nat := 2 ^ 128 - 1

/-- The part of `struct pf_rule_addr` the pinhole code touches.  An IPv6
address or mask is the number formed by its sixteen bytes. -/
structure pf_rule_addr where
  /-- Field `addr.type`. -/
  addr_type : Nat := 0
  /-- Field `addr.v.a.addr.v6`. -/
  addr : Nat := 0
  /-- Field `addr.v.a.mask`. -/
  mask : Nat := 0
  /-- Field `port[0]`, in network byte order. -/
  port0 : Nat := 0
  /-- Field `port_op`. -/
  port_op : Nat := 0
deriving DecidableEq

/-- The part of `struct pf_rule` the pinhole code reads or writes (the fields
`log`, `qname`, `tagname`, `rtableid`, `onrdomain`, `nat` and `rdr`, which
no operation reads back, are left out). -/
structure pf_rule where
  /-- Source (remote) endpoint. -/
  src : pf_rule_addr := {}
  /-- Destination (local) endpoint. -/
  dst : pf_rule_addr := {}
  /-- Field `label`, a `char[PF_RULE_LABEL_SIZE]`. -/
  label : List Char := []
  /-- The string that starts one byte behind the terminating NUL of `label`:
  the rest of the array, or, when the label fills the array, the field
  `ifname`, which follows it in `struct pf_rule`. -/
  label_behind : List Char := []
  /-- Field `ifname`. -/
  ifname : List Char := []
  /-- Field `direction`. -/
  direction : Nat := 0
  /-- Field `action`. -/
  action : Nat := 0
  /-- Field `af`. -/
  af : Nat := 0
  /-- Field `proto`, a `u_int8_t`. -/
  proto : Nat := 0
  /-- Field `quick`. -/
  quick : Nat := 0
  /-- Field `flags`. -/
  flags : Nat := 0
  /-- Field `flagset`. -/
  flagset : Nat := 0
  /-- Field `keep_state`. -/
  keep_state : Nat := 0
  /-- Field `packets[2]`. -/
  packets : Nat × Nat := (0, 0)
  /-- Field `bytes[2]`. -/
  bytes : Nat × Nat := (0, 0)
deriving DecidableEq

/-- What the platform and the build fix. -/
structure Config where
  /-- Size of the label array of a rule (`net/pfvar.h`). -/
  PF_RULE_LABEL_SIZE : Nat
  /-- Size of an interface name (`net/if.h`). -/
  IFNAMSIZ : Nat
  /-- Value of `AF_INET6` (`sys/socket.h`). -/
  AF_INET6 : Nat
  /-- Whether the build defines `PF_NEWSTYLE`. -/
  PF_NEWSTYLE : Bool
  /-- The call `inet_pton(AF_INET6, s, &a)`: the address stored in `a` when the
  call returns 1, `none` when it does not (and `a` is left untouched). -/
  inet_pton : List Char → Option Nat
  /-- The call `inet_ntop(AF_INET6, &a, buf, len)`: the text, `none` for `NULL`. -/
  inet_ntop : Nat → Nat → Option (List Char)

/-- The process and the kernel side by side: the globals `dev` and `next_uid`,
the rules of the anchor, the ticket of the active rule set, and the outcomes of
the coming ioctl calls (`true` for a call that fails for a reason of its own;
an exhausted list means every further call is served). -/
structure State where
  /-- The descriptor of `/dev/pf`, negative when not open. -/
  dev : Int
  /-- The static `next_uid`. -/
  next_uid : Int
  /-- The rules of the anchor, in rule-number order. -/
  rules : List pf_rule
  /-- The ticket of the active rule set. -/
  ticket : Nat
  /-- Outcomes of the coming ioctl calls. -/
  faults : List Bool
deriving DecidableEq

/-- Start-up state: `next_uid = 1`, an empty anchor. -/
def State.init (dev : Int) (faults : List Bool) : State :=
  { dev := dev, next_uid := 1, rules := [], ticket := 0, faults := faults }

/-- Consume the outcome of one ioctl call: `true` when it fails. -/
def ioctl_fault (st : State) : Bool × State :=
  match st.faults with
  | [] => (false, st)
  | b :: bs => (b, { st with faults := bs })

/-- The ioctl `DIOCBEGINADDRS`: `true` on success. -/
def DIOCBEGINADDRS (st : State) : Bool × State :=
  (!(ioctl_fault st).1, (ioctl_fault st).2)

/-- The ioctl `DIOCGETRULES`: the ticket and the number of rules. -/
def DIOCGETRULES (st : State) : Option (Nat × Nat) × State :=
  if (ioctl_fault st).1 then (none, (ioctl_fault st).2)
  else (some (st.ticket, st.rules.length), (ioctl_fault st).2)

/-- The ioctl `DIOCGETRULE` for rule number `nr` under `ticket`: fails on a
stale ticket or a number out of range. -/
def DIOCGETRULE (st : State) (ticket nr : Nat) : Option pf_rule × State :=
  if (ioctl_fault st).1 then (none, (ioctl_fault st).2)
  else if ticket = st.ticket then (st.rules[nr]?, (ioctl_fault st).2)
  else (none, (ioctl_fault st).2)

/-- The ioctl `DIOCCHANGERULE` with `PF_CHANGE_GET_TICKET`: a fresh ticket. -/
def DIOCCHANGERULE_GET_TICKET (st : State) : Option Nat × State :=
  if (ioctl_fault st).1 then (none, (ioctl_fault st).2)
  else (some (st.ticket + 1), { (ioctl_fault st).2 with ticket := st.ticket + 1 })

/-- The ioctl `DIOCCHANGERULE` with `PF_CHANGE_ADD_TAIL`: append `rule`. -/
def DIOCCHANGERULE_ADD_TAIL (st : State) (ticket : Nat) (rule : pf_rule) : Bool × State :=
  if (ioctl_fault st).1 then (false, (ioctl_fault st).2)
  else if ticket = st.ticket then
    (true, { (ioctl_fault st).2 with rules := st.rules ++ [rule], ticket := st.ticket + 1 })
  else (false, (ioctl_fault st).2)

/-- The ioctl `DIOCCHANGERULE` with `PF_CHANGE_REMOVE`: drop rule number `nr`;
the rules behind it move up by one. -/
def DIOCCHANGERULE_REMOVE (st : State) (ticket nr : Nat) : Bool × State :=
  if (ioctl_fault st).1 then (false, (ioctl_fault st).2)
  else if ticket = st.ticket ∧ nr < st.rules.length then
    (true, { (ioctl_fault st).2 with rules := st.rules.eraseIdx nr, ticket := st.ticket + 1 })
  else (false, (ioctl_fault st).2)

/-- Byte swap of a 16-bit value: `htons` and `ntohs` on a little-endian host. -/
def htons (x : Nat) : Nat := (x % 256) * 256 + (x / 256) % 256

/-- See `htons`. -/
def ntohs (x : Nat) : Nat := htons x

/-! ## `add_pinhole` -/

/-- The test `rem_host && rem_host[0] != 0 && rem_host[0] != '*'` of
`add_pinhole`. -/
def rem_host_concrete : Option (List Char) → Bool
  | some (c :: _) => decide (c ≠ '*')
  | _ => false

/-- The rule `add_pinhole` assembles in `pcr.rule` for the id `uid`.  The
structure was cleared by `memset`, so the bytes behind the label are zero
unless the label fills its array, in which case `ifname` comes next. -/
def add_pinhole_rule (cfg : Config) (uid : Int) (ifname rem_host : Option (List Char))
    (rem_port : Nat) (int_client : List Char) (int_port : Nat) (proto : Int)
    (desc : List Char) (timestamp : Nat) : pf_rule :=
  let label := snprintf cfg.PF_RULE_LABEL_SIZE
    (PINEHOLE_LABEL_FORMAT uid (toUInt32 timestamp) desc)
  let name := match ifname with
    | some name => strlcpy [] name cfg.IFNAMSIZ
    | none => []
  { direction := PF_IN
    action := PF_PASS
    af := cfg.AF_INET6
    proto := (toInt32 proto % 256).toNat
    quick := 1
    flags := TH_SYN
    flagset := TH_SYN ||| TH_ACK
    keep_state := 1
    label := label
    label_behind := if label.length + 1 = cfg.PF_RULE_LABEL_SIZE then name else []
    src :=
      { port_op := if toUInt16 rem_port ≠ 0 then PF_OP_EQ else 0
        port0 := if toUInt16 rem_port ≠ 0 then htons (toUInt16 rem_port) else 0
        addr_type := PF_ADDR_ADDRMASK
        addr := if rem_host_concrete rem_host then
            ((rem_host.bind cfg.inet_pton).getD 0) else 0
        mask := if rem_host_concrete rem_host then MASK_ALL_ONES else 0 }
    dst :=
      { port_op := PF_OP_EQ
        port0 := htons (toUInt16 int_port)
        addr_type := PF_ADDR_ADDRMASK
        addr := (cfg.inet_pton int_client).getD 0
        mask := MASK_ALL_ONES }
    ifname := name }

/-- The tail of `add_pinhole`: `if(++next_uid >= 65535) next_uid = 1;`. -/
def advance_uid (next_uid : Int) : Int :=
  if toInt32 (next_uid + 1) ≥ 65535 then 1 else toInt32 (next_uid + 1)

/-- The two `DIOCCHANGERULE` exchanges of `add_pinhole` and the allocation
that follows them. -/
def add_pinhole_commit (st : State) (rule : pf_rule) : Int × State :=
  match DIOCCHANGERULE_GET_TICKET st with
  | (none, st1) => (-1, st1)
  | (some t, st1) =>
    match DIOCCHANGERULE_ADD_TAIL st1 t rule with
    | (false, st2) => (-1, st2)
    | (true, st2) => (st.next_uid, { st2 with next_uid := advance_uid st2.next_uid })

/-- The function `add_pinhole`: the returned value and the state after. -/
def add_pinhole (cfg : Config) (st : State) (ifname rem_host : Option (List Char))
    (rem_port : Nat) (int_client : List Char) (int_port : Nat) (proto : Int)
    (desc : List Char) (timestamp : Nat) : Int × State :=
  if st.dev < 0 then (-1, st)
  else
    let rule := add_pinhole_rule cfg st.next_uid ifname rem_host rem_port int_client
      int_port proto desc timestamp
    if cfg.PF_NEWSTYLE then add_pinhole_commit st rule
    else
      match DIOCBEGINADDRS st with
      | (false, st1) => (-1, st1)
      | (true, st1) => add_pinhole_commit st1 rule

/-! ## `find_pinhole` -/

/-- What `find_pinhole` hands back: the returned value and the contents of the
buffers behind `desc` and `timestamp` (`none` for a `NULL` pointer). -/
structure FindResult where
  /-- The returned value. -/
  ret : Int
  /-- Buffer `desc`. -/
  desc : Option (List Char)
  /-- Variable `*timestamp`. -/
  timestamp : Option Nat
deriving DecidableEq

/-- The five-fold comparison of `find_pinhole` (protocol, ports through
`ntohs`, addresses through `memcmp`). -/
def find_pinhole_match (proto : Int) (rem_port saddr int_port daddr : Nat)
    (r : pf_rule) : Bool :=
  decide (proto = (r.proto : Int)) && decide (rem_port = ntohs r.src.port0)
    && decide (saddr = r.src.addr) && decide (int_port = ntohs r.dst.port0)
    && decide (daddr = r.dst.addr)

/-- The description `find_pinhole` copies out: the string at `p + 2`, where
`p` points at the first colon of the label.  When that colon is the last
character, `p + 2` steps over the terminating NUL and the copy starts at
`behind`, the string one byte behind it. -/
def find_pinhole_desc (label behind : List Char) (desc : Option (List Char))
    (desc_len : Nat) : Option (List Char) :=
  match desc with
  | none => none
  | some buf =>
    match strchr label ':' with
    | none => some buf
    | some [_] => some (strlcpy buf behind desc_len)
    | some p => some (strlcpy buf (p.drop 2) desc_len)

/-- The loop of `find_pinhole`: `todo` rules are left, the next one is `i`. -/
def find_pinhole_loop (ticket : Nat) (proto : Int) (rem_port saddr int_port daddr : Nat)
    (desc : Option (List Char)) (desc_len : Nat) (timestamp : Option Nat) :
    Nat → Nat → State → FindResult × State
  | 0, _, st => (⟨-2, desc, timestamp⟩, st)
  | todo + 1, i, st =>
    match DIOCGETRULE st ticket i with
    | (none, st1) => (⟨-1, desc, timestamp⟩, st1)
    | (some r, st1) =>
      if find_pinhole_match proto rem_port saddr int_port daddr r then
        match sscanf_SKIPDESC r.label with
        | .two uid ts =>
          (⟨uid, find_pinhole_desc r.label r.label_behind desc desc_len, timestamp.map (fun _ => ts)⟩, st1)
        | _ => find_pinhole_loop ticket proto rem_port saddr int_port daddr desc desc_len
            timestamp todo (i + 1) st1
      else find_pinhole_loop ticket proto rem_port saddr int_port daddr desc desc_len
        timestamp todo (i + 1) st1

/-- The local `saddr` of `find_pinhole` before the loop; `saddr0` is what the
uninitialised variable happens to hold. -/
def find_pinhole_saddr (cfg : Config) (rem_host : Option (List Char)) (saddr0 : Nat) : Nat :=
  match rem_host with
  | some (c :: cs) => (cfg.inet_pton (c :: cs)).getD saddr0
  | _ => 0

/-- The function `find_pinhole`.  The arguments `saddr0` and `daddr0` are the
indeterminate initial contents of the locals `saddr` and `daddr`, which stay
in place when `inet_pton` fails; `desc_len` is the size `strlcpy` receives. -/
def find_pinhole (cfg : Config) (st : State) (_ifname rem_host : Option (List Char))
    (rem_port : Nat) (int_client : List Char) (int_port : Nat) (proto : Int)
    (desc : Option (List Char)) (desc_len : Nat) (timestamp : Option Nat)
    (saddr0 daddr0 : Nat) : FindResult × State :=
  if st.dev < 0 then (⟨-1, desc, timestamp⟩, st)
  else
    let saddr := find_pinhole_saddr cfg rem_host saddr0
    let daddr := (cfg.inet_pton int_client).getD daddr0
    match DIOCGETRULES st with
    | (none, st1) => (⟨-1, desc, timestamp⟩, st1)
    | (some (ticket, n), st1) =>
      find_pinhole_loop ticket (toInt32 proto) (toUInt16 rem_port) saddr (toUInt16 int_port)
        daddr desc desc_len timestamp n 0 st1

/-! ## `delete_pinhole` -/

/-- The buffer `label_start`: `snprintf(label_start, sizeof(label_start),
"pinhole-%hu", uid)`. -/
def label_start (cfg : Config) (uid : Nat) : List Char :=
  snprintf cfg.PF_RULE_LABEL_SIZE ("pinhole-".toList ++ fmt_u (toUInt16 uid))

/-- The loop of `delete_pinhole`. -/
def delete_pinhole_loop (cfg : Config) (ticket uid : Nat) : Nat → Nat → State → Int × State
  | 0, _, st => (-2, st)
  | todo + 1, i, st =>
    match DIOCGETRULE st ticket i with
    | (none, st1) => (-1, st1)
    | (some r, st1) =>
      if strtok_space (strlcpy [] r.label cfg.PF_RULE_LABEL_SIZE) = label_start cfg uid then
        match DIOCCHANGERULE_GET_TICKET st1 with
        | (none, st2) => (-1, st2)
        | (some t, st2) =>
          match DIOCCHANGERULE_REMOVE st2 t i with
          | (false, st3) => (-1, st3)
          | (true, st3) => (0, st3)
      else delete_pinhole_loop cfg ticket uid todo (i + 1) st1

/-- The function `delete_pinhole`. -/
def delete_pinhole (cfg : Config) (st : State) (uid : Nat) : Int × State :=
  if st.dev < 0 then (-1, st)
  else
    match DIOCGETRULES st with
    | (none, st1) => (-1, st1)
    | (some (ticket, n), st1) => delete_pinhole_loop cfg ticket uid n 0 st1

/-! ## `update_pinhole` -/

/-- The function `update_pinhole`: not implemented, always -42. -/
def update_pinhole (st : State) (_uid : Nat) (_timestamp : Nat) : Int × State := (-42, st)

/-! ## `get_pinhole_info` -/

/-- The buffers and variables behind the output pointers of `get_pinhole_info`
(`none` for a `NULL` pointer). -/
structure InfoBuffers where
  /-- Buffer `rem_host`. -/
  rem_host : Option (List Char)
  /-- Variable `*rem_port`. -/
  rem_port : Option Nat
  /-- Buffer `int_client`. -/
  int_client : Option (List Char)
  /-- Variable `*int_port`. -/
  int_port : Option Nat
  /-- Variable `*proto`. -/
  proto : Option Int
  /-- Buffer `desc`. -/
  desc : Option (List Char)
  /-- Variable `*timestamp`. -/
  timestamp : Option Nat
  /-- Variable `*packets`. -/
  packets : Option Nat
  /-- Variable `*bytes`. -/
  bytes : Option Nat
deriving DecidableEq

/-- The timestamp and description part of `get_pinhole_info`; `p` is the
pointer left by the first `strsep`.  The result is `none` when `sscanf` is
handed a `NULL` pointer, which C leaves undefined. -/
def get_pinhole_info_label (p : Option (List Char)) (desc : Option (List Char))
    (desclen : Nat) (timestamp : Option Nat) : Option (Option (List Char) × Option Nat) :=
  match timestamp, p with
  | some _, none => none
  | _, _ =>
    let timestamp1 := match timestamp, p with
      | some t, some q => some (sscanf_ts q t)
      | _, _ => timestamp
    let desc1 := match desc with
      | none => none
      | some buf =>
        match p.bind (fun q => (strsep_space q).2) with
        | some q2 => some (strlcpy buf q2 desclen)
        | none => some []
    some (desc1, timestamp1)

/-- The body of the `if(0 == strcmp(tmp_label, label_start))` branch of
`get_pinhole_info` for the rule `r`. -/
def get_pinhole_info_fill (cfg : Config) (r : pf_rule) (p : Option (List Char))
    (rem_hostlen int_clientlen desclen : Nat) (b : InfoBuffers) :
    Option (Int × InfoBuffers) :=
  match b.rem_host, cfg.inet_ntop r.src.addr rem_hostlen with
  | some _, none => some (-1, b)
  | h, t =>
    let b1 : InfoBuffers :=
      { b with rem_host := h.bind (fun _ => t)
               rem_port := b.rem_port.map (fun _ => ntohs r.src.port0) }
    match b1.int_client, cfg.inet_ntop r.dst.addr int_clientlen with
    | some _, none => some (-1, b1)
    | h2, t2 =>
      let b2 : InfoBuffers :=
        { b1 with int_client := h2.bind (fun _ => t2)
                  int_port := b1.int_port.map (fun _ => ntohs r.dst.port0)
                  proto := b1.proto.map (fun _ => (r.proto : Int)) }
      match get_pinhole_info_label p b2.desc desclen b2.timestamp with
      | none => none
      | some (d, ts) =>
        some (0, { b2 with desc := d, timestamp := ts
                           packets := b2.packets.map
                             (fun _ => (r.packets.1 + r.packets.2) % 18446744073709551616)
                           bytes := b2.bytes.map
                             (fun _ => (r.bytes.1 + r.bytes.2) % 18446744073709551616) })

/-- The loop of `get_pinhole_info`. -/
def get_pinhole_info_loop (cfg : Config) (ticket uid rem_hostlen int_clientlen desclen : Nat)
    (b : InfoBuffers) : Nat → Nat → State → Option (Int × InfoBuffers) × State
  | 0, _, st => (some (-2, b), st)
  | todo + 1, i, st =>
    match DIOCGETRULE st ticket i with
    | (none, st1) => (some (-1, b), st1)
    | (some r, st1) =>
      if (strsep_space (strlcpy [] r.label cfg.PF_RULE_LABEL_SIZE)).1 = label_start cfg uid then
        (get_pinhole_info_fill cfg r (strsep_space (strlcpy [] r.label cfg.PF_RULE_LABEL_SIZE)).2
          rem_hostlen int_clientlen desclen b, st1)
      else get_pinhole_info_loop cfg ticket uid rem_hostlen int_clientlen desclen b
        todo (i + 1) st1

/-- The function `get_pinhole_info` (built with `PFRULE_INOUT_COUNTS`).  The
first component is `none` when the call runs into undefined behaviour. -/
def get_pinhole_info (cfg : Config) (st : State) (uid rem_hostlen int_clientlen desclen : Nat)
    (b : InfoBuffers) : Option (Int × InfoBuffers) × State :=
  if st.dev < 0 then (some (-1, b), st)
  else
    match DIOCGETRULES st with
    | (none, st1) => (some (-1, b), st1)
    | (some (ticket, n), st1) =>
      get_pinhole_info_loop cfg ticket uid rem_hostlen int_clientlen desclen b n 0 st1

/-! ## `clean_pinhole_list` -/

/-- The locals `min_ts`, `min_uid`, `max_uid` and `n` of `clean_pinhole_list`. -/
structure CleanAcc where
  /-- Local `min_ts`. -/
  min_ts : Nat
  /-- Local `min_uid`. -/
  min_uid : Int
  /-- Local `max_uid`. -/
  max_uid : Int
  /-- Local `n`. -/
  n : Int
deriving DecidableEq

/-- Their initial values. -/
def CleanAcc.init : CleanAcc := { min_ts := UINT_MAX, min_uid := INT_MAX, max_uid := -1, n := 0 }

/-- The `else` branch of the loop body: a pinhole that is still alive. -/
def CleanAcc.keep (acc : CleanAcc) (uid : Int) (ts : Nat) : CleanAcc :=
  { acc with
    max_uid := if uid > acc.max_uid then uid else acc.max_uid
    min_uid := if uid > acc.max_uid then acc.min_uid
               else if uid < acc.min_uid then uid else acc.min_uid
    min_ts := if ts < acc.min_ts then ts else acc.min_ts }

/-- The loop of `clean_pinhole_list`: `todo` rules are left, the next one is
number `todo - 1`; `none` stands for the early `return -1`. -/
def clean_pinhole_loop (now : Nat) : Nat → Nat → CleanAcc → State → Option CleanAcc × State
  | 0, _, acc, st => (some acc, st)
  | i + 1, ticket, acc, st =>
    match DIOCGETRULE st ticket i with
    | (none, st1) => (none, st1)
    | (some r, st1) =>
      match sscanf_SKIPDESC r.label with
      | .two uid ts =>
        if ts ≤ now then
          match DIOCCHANGERULE_GET_TICKET st1 with
          | (none, st2) => (none, st2)
          | (some t, st2) =>
            match DIOCCHANGERULE_REMOVE st2 t i with
            | (false, st3) => (none, st3)
            | (true, st3) =>
              match DIOCGETRULES st3 with
              | (none, st4) => (none, st4)
              | (some (ticket1, _), st4) =>
                clean_pinhole_loop now i ticket1 { acc with n := acc.n + 1 } st4
        else clean_pinhole_loop now i ticket (acc.keep uid ts) st1
      | _ => clean_pinhole_loop now i ticket acc st1

/-- The adjustment of `next_uid` at the end of `clean_pinhole_list`. -/
def reconcile_uid (next_uid min_uid max_uid : Int) : Int :=
  if max_uid > 0 then
    let nu := if toInt32 (min_uid - 32000) ≤ next_uid ∧ next_uid ≤ max_uid
      then toInt32 (max_uid + 1) else next_uid
    if nu ≥ 65535 then 1 else nu
  else next_uid

/-- The function `clean_pinhole_list`; `current_time` is what `upnp_time()`
returns, `next_timestamp` the variable behind the pointer (`none` for `NULL`).
Returns the value, the variable, and the state after. -/
def clean_pinhole_list (st : State) (current_time : Int) (next_timestamp : Option Nat) :
    (Int × Option Nat) × State :=
  if st.dev < 0 then ((-1, next_timestamp), st)
  else
    match DIOCGETRULES st with
    | (none, st1) => ((-1, next_timestamp), st1)
    | (some (ticket, n), st1) =>
      match clean_pinhole_loop (toUInt32 current_time) n ticket CleanAcc.init st1 with
      | (none, st2) => ((-1, next_timestamp), st2)
      | (some acc, st2) =>
        ((acc.n, if acc.min_ts ≠ UINT_MAX then next_timestamp.map (fun _ => acc.min_ts)
                 else next_timestamp),
         { st2 with next_uid := reconcile_uid st2.next_uid acc.min_uid acc.max_uid })

/-! ## Auxiliary notions for the statements -/

/-- A string that does not continue a run of digits. -/
def no_digit_head (s : List Char) : Prop := ∀ c cs, s = c :: cs → isdigit c = false

/-- The canonical label text for a non-negative id. -/
def canon (n ts : Nat) (d : List Char) : List Char :=
  "pinhole-".toList ++ (fmt_u n ++ (" ts-".toList ++ (fmt_u ts ++ (": ".toList ++ d))))

/-- A fragment of `inet_pton` for `AF_INET6`: the addresses used in the
examples (`::` is the all-zero address). -/
def sample_inet_pton (s : List Char) : Option Nat :=
  if s = [':', ':'] then some 0
  else if s = "2001:db8::1".toList then some 0x20010db8000000000000000000000001
  else if s = "2001:db8::2".toList then some 0x20010db8000000000000000000000002
  else none

/-- A configuration with the values of OpenBSD: labels of 64 bytes. -/
def sample_cfg : Config :=
  { PF_RULE_LABEL_SIZE := 64
    IFNAMSIZ := 16
    AF_INET6 := 24
    PF_NEWSTYLE := true
    inet_pton := sample_inet_pton
    inet_ntop := fun _ _ => some [] }

/-! ## Sequences of calls -/

/-- The arguments of one `add_pinhole` call. -/
structure AddArgs where
  /-- Argument `ifname`. -/
  ifname : Option (List Char)
  /-- Argument `rem_host`. -/
  rem_host : Option (List Char)
  /-- Argument `rem_port`. -/
  rem_port : Nat
  /-- Argument `int_client`. -/
  int_client : List Char
  /-- Argument `int_port`. -/
  int_port : Nat
  /-- Argument `proto`. -/
  proto : Int
  /-- Argument `desc`. -/
  desc : List Char
  /-- Argument `timestamp`. -/
  timestamp : Nat
deriving DecidableEq

/-- The call `add_pinhole` on bundled arguments. -/
def add_pinhole_args (cfg : Config) (st : State) (a : AddArgs) : Int × State :=
  add_pinhole cfg st a.ifname a.rem_host a.rem_port a.int_client a.int_port a.proto a.desc
    a.timestamp

/-- The rule `add_pinhole` builds from bundled arguments for the id `uid`. -/
def rule_of (cfg : Config) (uid : Int) (a : AddArgs) : pf_rule :=
  add_pinhole_rule cfg uid a.ifname a.rem_host a.rem_port a.int_client a.int_port a.proto a.desc
    a.timestamp

/-- One call of the interface that can change the anchor or the allocator. -/
inductive Op where
  /-- A call of `add_pinhole`. -/
  | add (a : AddArgs) : Op
  /-- A call of `delete_pinhole`. -/
  | delete (uid : Nat) : Op
  /-- A call of `update_pinhole`. -/
  | update (uid : Nat) (timestamp : Nat) : Op
  /-- A call of `clean_pinhole_list` at time `now`. -/
  | clean (now : Int) (next_timestamp : Option Nat) : Op
deriving DecidableEq

/-- Whether the call is a `clean_pinhole_list`. -/
def Op.isClean : Op → Bool
  | .clean _ _ => true
  | _ => false

/-- Whether the call is an `add_pinhole`. -/
def Op.isAdd : Op → Bool
  | .add _ => true
  | _ => false

/-- Perform one call: the returned value and the state after. -/
def step (cfg : Config) (st : State) : Op → Int × State
  | .add a => add_pinhole_args cfg st a
  | .delete uid => delete_pinhole cfg st uid
  | .update uid ts => update_pinhole st uid ts
  | .clean now nt => ((clean_pinhole_list st now nt).1.1, (clean_pinhole_list st now nt).2)

/-- Perform the calls in order: the state after the last one. -/
def exec (cfg : Config) : State → List Op → State
  | st, [] => st
  | st, op :: ops => exec cfg (step cfg st op).2 ops

/-- The values returned by the `add_pinhole` calls among `ops`, in order. -/
def add_results (cfg : Config) : State → List Op → List Int
  | _, [] => []
  | st, op :: ops =>
    if op.isAdd then (step cfg st op).1 :: add_results cfg (step cfg st op).2 ops
    else add_results cfg (step cfg st op).2 ops

/-- The ids of the pinhole rules of an anchor: the first value `sscanf` reads
from every label on which it returns 2. -/
def pinhole_ids (rules : List pf_rule) : List Int :=
  rules.filterMap (fun r =>
    match sscanf_SKIPDESC r.label with
    | .two uid _ => some uid
    | _ => none)

/-- Arguments of the scenario of the specification: remote `2001:db8::1`, any
port, local `2001:db8::2` port 8080, TCP, description `cam`, expiry 1000. -/
def sample_args : AddArgs :=
  { ifname := some "wan0".toList
    rem_host := some "2001:db8::1".toList
    rem_port := 0
    int_client := "2001:db8::2".toList
    int_port := 8080
    proto := 6
    desc := "cam".toList
    timestamp := 1000 }

/-- The state `st1` comes after `st` through ioctl exchanges that added no
rule: same `dev` and `next_uid`, the rules a sublist, and no failure pending
if none was. -/
def State.after (st st1 : State) : Prop :=
  st1.dev = st.dev ∧ st1.next_uid = st.next_uid ∧ st1.rules.Sublist st.rules
    ∧ (st.faults = [] → st1.faults = [])

/-! ## Notions for the statements about `clean_pinhole_list` -/

/-- The rule is a pinhole (its label makes `sscanf` return 2) whose timestamp
is at most `now`. -/
def expired (now : Nat) (r : pf_rule) : Bool :=
  match sscanf_SKIPDESC r.label with
  | .two _ ts => decide (ts ≤ now)
  | _ => false

/-- The timestamps of the pinholes that are not expired at `now`. -/
def live_timestamps (now : Nat) : List pf_rule → List Nat
  | [] => []
  | r :: rs =>
    match sscanf_SKIPDESC r.label with
    | .two _ ts => if ts ≤ now then live_timestamps now rs else ts :: live_timestamps now rs
    | _ => live_timestamps now rs

/-- The ids of the pinholes that are not expired at `now`. -/
def live_ids (now : Nat) : List pf_rule → List Int
  | [] => []
  | r :: rs =>
    match sscanf_SKIPDESC r.label with
    | .two uid ts => if ts ≤ now then live_ids now rs else uid :: live_ids now rs
    | _ => live_ids now rs

/-- The effect of one pass of the loop body of `clean_pinhole_list` on its
locals, for the rule `r`. -/
def CleanAcc.visit (now : Nat) (r : pf_rule) (acc : CleanAcc) : CleanAcc :=
  match sscanf_SKIPDESC r.label with
  | .two uid ts => if ts ≤ now then { acc with n := acc.n + 1 } else acc.keep uid ts
  | _ => acc

/-- The timestamps of the pinhole rules of an anchor: the second value `sscanf`
reads from every label on which it returns 2. -/
def pinhole_timestamps : List pf_rule → List Nat
  | [] => []
  | r :: rs =>
    match sscanf_SKIPDESC r.label with
    | .two _ ts => ts :: pinhole_timestamps rs
    | _ => pinhole_timestamps rs

/-- The anchor after one `add_pinhole` with the largest timestamp an
`unsigned int` holds, from the start-up state. -/
def sentinel_state : State :=
  (add_pinhole_args sample_cfg (State.init 3 [])
    { sample_args with timestamp := 4294967295 }).2

/-- The anchor after one `add_pinhole` of the scenario (expiry 1000). -/
def scenario_state : State :=
  (add_pinhole_args sample_cfg (State.init 3 []) sample_args).2

/-- A freshly started process (`next_uid = 1`) in front of an anchor that still
holds one pinhole with id 5, as left by an earlier run. -/
def restart_state : State :=
  { dev := 3, next_uid := 1, rules := [rule_of sample_cfg 5 sample_args], ticket := 0,
    faults := [] }

/-- An anchor with a pinhole of id 5 followed by a rule whose label carries the
id `INT_MAX`; both expire at 4000000000. -/
def int_max_state : State :=
  { dev := 3, next_uid := 1
    rules := [{ label := "pinhole-5 ts-4000000000: a".toList },
              { label := "pinhole-2147483647 ts-4000000000: b".toList }]
    ticket := 0, faults := [] }

/-! ## Notions for the statements about `find_pinhole` and `delete_pinhole` -/

/-- The rule stops the scan of `find_pinhole`: the five criteria agree and the
label makes `sscanf` return 2. -/
def find_hit (proto : Int) (rem_port saddr int_port daddr : Nat) (r : pf_rule) : Bool :=
  find_pinhole_match proto rem_port saddr int_port daddr r
    && decide ((sscanf_SKIPDESC r.label).ret = 2)

/-- The scan of `find_pinhole` over a list of rules, without the ioctl layer. -/
def find_in (proto : Int) (rem_port saddr int_port daddr : Nat)
    (desc : Option (List Char)) (desc_len : Nat) (timestamp : Option Nat) :
    List pf_rule → FindResult
  | [] => ⟨-2, desc, timestamp⟩
  | r :: rs =>
    if find_pinhole_match proto rem_port saddr int_port daddr r then
      match sscanf_SKIPDESC r.label with
      | .two uid ts =>
        ⟨uid, find_pinhole_desc r.label r.label_behind desc desc_len, timestamp.map (fun _ => ts)⟩
      | _ => find_in proto rem_port saddr int_port daddr desc desc_len timestamp rs
    else find_in proto rem_port saddr int_port daddr desc desc_len timestamp rs

/-- The label test of `delete_pinhole` for the id `uid`. -/
def delete_hit (cfg : Config) (uid : Nat) (r : pf_rule) : Bool :=
  decide (strtok_space (strlcpy [] r.label cfg.PF_RULE_LABEL_SIZE) = label_start cfg uid)

/-- The anchor after one `add_pinhole` of the scenario with the wildcard remote
host `*`, from the start-up state. -/
def wildcard_state : State :=
  (add_pinhole_args sample_cfg (State.init 3 [])
    { sample_args with rem_host := some ['*'] }).2

/-- The anchor after one `add_pinhole` of the scenario with the concrete remote
host `::`, from the start-up state. -/
def unspecified_state : State :=
  (add_pinhole_args sample_cfg (State.init 3 [])
    { sample_args with rem_host := some [':', ':'] }).2

/-! ## The shape of a pinhole label, in words -/

/-- The text of a number as `%d` and `%u` accept it: optional white space, an
optional sign, at least one decimal digit. -/
def number_text (s : List Char) : Prop :=
  ∃ ws sg dg, s = ws ++ (sg ++ dg) ∧ (∀ c ∈ ws, isspace c = true)
    ∧ (sg = [] ∨ sg = ['+'] ∨ sg = ['-']) ∧ dg ≠ [] ∧ ∀ c ∈ dg, isdigit c = true

/-- The amended label shape: `pinhole-`, a number, optional white space, `ts-`,
a number, and then anything at all (a colon is not required, nor is white
space between the id and `ts-`). -/
def pinhole_shape (label : List Char) : Prop :=
  ∃ num1 ws num2 rest,
    label = "pinhole-".toList ++ (num1 ++ (ws ++ ("ts-".toList ++ (num2 ++ rest))))
    ∧ number_text num1 ∧ (∀ c ∈ ws, isspace c = true) ∧ number_text num2

/-- An anchor with an operator's rule, a pinhole label without the colon and
one without the blank, all with timestamp 5 where they have one. -/
def odd_labels_state : State :=
  { dev := 3, next_uid := 1
    rules := [{ label := "my rule".toList }, { label := "pinhole-1 ts-5".toList },
              { label := "pinhole-2ts-5".toList }]
    ticket := 0, faults := [] }

/-! ## Notions for the statements about id uniqueness -/

/-- The number of `add_pinhole` calls among `ops` that do not return -1. -/
def successful_adds (cfg : Config) : State → List Op → Nat
  | _, [] => 0
  | st, op :: ops =>
    (if op.isAdd = true ∧ (step cfg st op).1 ≠ -1 then 1 else 0)
      + successful_adds cfg (step cfg st op).2 ops

/-- The allocator has handed out the ids `1..m` and not yet wrapped past them:
`next_uid` is in range, is `m + 1` as long as that is a valid id, and the
pinhole ids in the anchor are increasing and at most `m`. -/
def Fresh (m : Nat) (st : State) : Prop :=
  1 ≤ st.next_uid ∧ st.next_uid ≤ 65534
    ∧ (m ≤ 65533 → st.next_uid = (m : Int) + 1)
    ∧ (pinhole_ids st.rules).Pairwise (fun x y => x < y)
    ∧ ∀ u ∈ pinhole_ids st.rules, 1 ≤ u ∧ u ≤ (m : Int)

/-- The label test of `get_pinhole_info` for the id `uid`: the token in front of
the first blank equals `label_start`. -/
def info_hit (cfg : Config) (uid : Nat) (r : pf_rule) : Bool :=
  decide ((strsep_space (strlcpy [] r.label cfg.PF_RULE_LABEL_SIZE)).1 = label_start cfg uid)

/-! # Theorems -/

/-! ## Decimal output read back -/

theorem digitChar_toNat (d : Nat) (h : d < 10) : (digitChar d).toNat = 48 + d := by
  interval_cases d <;> rfl

theorem isdigit_digitChar (d : Nat) (h : d < 10) : isdigit (digitChar d) = true := by
  interval_cases d <;> rfl

theorem isdigit_iff (c : Char) : isdigit c = true ↔ 48 ≤ c.toNat ∧ c.toNat ≤ 57 := by
  simp [isdigit]

theorem isspace_of_isdigit (c : Char) (h : isdigit c = true) : isspace c = false := by
  rw [isdigit_iff] at h
  simp only [isspace, Bool.or_eq_false_iff, decide_eq_false_iff_not]
  refine ⟨⟨⟨⟨⟨?_, ?_⟩, ?_⟩, ?_⟩, ?_⟩, ?_⟩ <;> (intro hc; subst hc; revert h; decide)

theorem ne_of_isdigit (c x : Char) (h : isdigit c = true) (hx : isdigit x = false) : c ≠ x := by
  intro hc; subst hc; simp [h] at hx

theorem utoa_aux_append (fuel n : Nat) (acc rest : List Char) :
    utoa_aux fuel n acc ++ rest = utoa_aux fuel n (acc ++ rest) := by
  induction fuel generalizing n acc with
  | zero => rfl
  | succ f ih =>
    simp only [utoa_aux]
    split
    · rfl
    · rw [ih]; rfl

theorem scan_digits_utoa_aux (fuel n : Nat) (tl : List Char) (h : n < fuel) :
    scan_digits 0 (utoa_aux fuel n tl) = scan_digits n tl := by
  induction fuel generalizing n tl with
  | zero => omega
  | succ f ih =>
    simp only [utoa_aux]
    split
    · rename_i h10
      simp [scan_digits, isdigit_digitChar n h10, digitChar_toNat n h10]
    · rename_i h10
      have hlt : n / 10 < f := by omega
      rw [ih (n / 10) _ hlt]
      have hm : n % 10 < 10 := Nat.mod_lt _ (by decide)
      simp only [scan_digits, isdigit_digitChar _ hm, digitChar_toNat _ hm, if_true]
      congr 1
      omega

theorem utoa_aux_head (fuel n : Nat) (tl : List Char) :
    ∃ c cs, utoa_aux (fuel + 1) n tl = c :: cs ∧ isdigit c = true := by
  induction fuel generalizing n tl with
  | zero =>
    simp only [utoa_aux]
    split
    · rename_i h10; exact ⟨_, _, rfl, isdigit_digitChar n h10⟩
    · exact ⟨_, _, rfl, isdigit_digitChar _ (Nat.mod_lt _ (by decide))⟩
  | succ f ih =>
    rw [utoa_aux]
    split
    · rename_i h10; exact ⟨_, _, rfl, isdigit_digitChar n h10⟩
    · exact ih _ _

theorem utoa_aux_all_digits (fuel n : Nat) (acc : List Char)
    (hacc : ∀ c ∈ acc, isdigit c = true) : ∀ c ∈ utoa_aux fuel n acc, isdigit c = true := by
  induction fuel generalizing n acc with
  | zero => simpa [utoa_aux] using hacc
  | succ f ih =>
    simp only [utoa_aux]
    split
    · rename_i h10
      intro c hc
      rcases List.mem_cons.1 hc with rfl | hc
      · exact isdigit_digitChar n h10
      · exact hacc c hc
    · apply ih
      intro c hc
      rcases List.mem_cons.1 hc with rfl | hc
      · exact isdigit_digitChar _ (Nat.mod_lt _ (by decide))
      · exact hacc c hc

theorem utoa_aux_length (fuel n k : Nat) (acc : List Char) (hk : 1 ≤ k) (hn : n < 10 ^ k) :
    (utoa_aux fuel n acc).length ≤ k + acc.length := by
  induction fuel generalizing n k acc with
  | zero => simp [utoa_aux]
  | succ f ih =>
    simp only [utoa_aux]
    split
    · simp; omega
    · rename_i h10
      have hk2 : 2 ≤ k := by
        by_contra hlt
        have : k = 1 := by omega
        subst this
        omega
      have hdiv : n / 10 < 10 ^ (k - 1) := by
        have : 10 ^ k = 10 ^ (k - 1) * 10 := by
          rw [← pow_succ]; congr 1; omega
        rw [this] at hn
        exact Nat.div_lt_of_lt_mul (by rwa [Nat.mul_comm] at hn)
      have := ih (n / 10) (k - 1) (digitChar (n % 10) :: acc) (by omega) hdiv
      simp only [List.length_cons] at this
      omega

theorem fmt_u_all_digits (n : Nat) : ∀ c ∈ fmt_u n, isdigit c = true :=
  utoa_aux_all_digits _ _ [] (by simp)

theorem fmt_u_length (n k : Nat) (hk : 1 ≤ k) (hn : n < 10 ^ k) : (fmt_u n).length ≤ k := by
  simpa using utoa_aux_length (n + 1) n k [] hk hn


theorem scan_digits_stop (n : Nat) (s : List Char) (h : no_digit_head s) :
    scan_digits n s = (n, s) := by
  cases s with
  | nil => rfl
  | cons c cs => simp [scan_digits, h c cs rfl]

theorem scan_subject_fmt_u (n : Nat) (rest : List Char) (h : no_digit_head rest) :
    scan_subject (fmt_u n ++ rest) = Subject.num false n rest := by
  unfold fmt_u
  rw [utoa_aux_append]
  obtain ⟨c, cs, hcs, hd⟩ := utoa_aux_head n n ([] ++ rest)
  have hscan := scan_digits_utoa_aux (n + 1) n ([] ++ rest) (by omega)
  rw [hcs] at hscan
  rw [hcs]
  have hsp := isspace_of_isdigit c hd
  have h1 : c ≠ '-' := ne_of_isdigit c '-' hd (by decide)
  have h2 : c ≠ '+' := ne_of_isdigit c '+' hd (by decide)
  simp only [scan_subject, skip_space, hsp, h1, h2, hscan, hd, or_self, if_false, if_true,
    decide_False, List.nil_append, Bool.false_eq_true]
  rw [scan_digits_stop n rest h]

/-! ## Reading back a label of the canonical form -/


theorem match_literal_append (l s : List Char) : match_literal l (l ++ s) = some s := by
  induction l with
  | nil => cases s <;> rfl
  | cons a l ih => simp [match_literal, ih]

theorem conv_d_pos (n : Nat) (h : n < 2147483648) : conv_d false n = n := by
  simp only [conv_d, toInt32, Bool.false_eq_true, if_false]
  split
  · omega
  · split
    · omega
    · omega

theorem conv_u_pos (n : Nat) (h : n < 4294967296) : conv_u false n = n := by
  simp only [conv_u, Bool.false_eq_true, if_false]
  split
  · omega
  · omega

theorem sscanf_SKIPDESC_canon (n ts : Nat) (d : List Char) (hn : n < 2147483648)
    (hts : ts < 4294967296) : sscanf_SKIPDESC (canon n ts d) = Scan.two n ts := by
  have e1 : scan_subject (fmt_u n ++ (" ts-".toList ++ (fmt_u ts ++ (": ".toList ++ d))))
      = Subject.num false n (" ts-".toList ++ (fmt_u ts ++ (": ".toList ++ d))) :=
    scan_subject_fmt_u n _ (by intro c cs h; cases h; decide)
  have e2 : scan_subject (fmt_u ts ++ (": ".toList ++ d)) = Subject.num false ts (": ".toList ++ d) :=
    scan_subject_fmt_u ts _ (by intro c cs h; cases h; decide)
  have e3 : skip_space (" ts-".toList ++ (fmt_u ts ++ (": ".toList ++ d)))
      = "ts-".toList ++ (fmt_u ts ++ (": ".toList ++ d)) := by
    simp [skip_space, isspace]
  have e4 : match_literal "pinhole-".toList (canon n ts d)
      = some (fmt_u n ++ (" ts-".toList ++ (fmt_u ts ++ (": ".toList ++ d)))) :=
    match_literal_append _ _
  unfold sscanf_SKIPDESC
  rw [e4]
  simp only [e1, e3, match_literal_append, e2, conv_d_pos n hn, conv_u_pos ts hts]

theorem strchr_append_of_not_mem (a b : List Char) (c : Char) (h : c ∉ a) :
    strchr (a ++ b) c = strchr b c := by
  induction a with
  | nil => rfl
  | cons x a ih =>
    simp only [List.mem_cons, not_or] at h
    show strchr (x :: (a ++ b)) c = strchr b c
    rw [strchr, if_neg (fun e => h.1 e.symm), ih h.2]

theorem not_mem_fmt_u (n : Nat) (c : Char) (hc : isdigit c = false) : c ∉ fmt_u n := by
  intro h
  have := fmt_u_all_digits n c h
  simp [this] at hc

theorem strchr_canon (n ts : Nat) (d : List Char) :
    strchr (canon n ts d) ':' = some (": ".toList ++ d) := by
  unfold canon
  rw [strchr_append_of_not_mem _ _ _ (by decide),
    strchr_append_of_not_mem _ _ _ (not_mem_fmt_u n ':' (by decide)),
    strchr_append_of_not_mem _ _ _ (by decide),
    strchr_append_of_not_mem _ _ _ (not_mem_fmt_u ts ':' (by decide))]
  rfl

theorem strsep_space_append (a b : List Char) (h : ' ' ∉ a) :
    strsep_space (a ++ ' ' :: b) = (a, some b) := by
  induction a with
  | nil => simp [strsep_space]
  | cons x a ih =>
    simp only [List.mem_cons, not_or] at h
    show strsep_space (x :: (a ++ ' ' :: b)) = (x :: a, some b)
    rw [strsep_space, if_neg (fun e => h.1 e.symm), ih h.2]

theorem strsep_space_canon (n ts : Nat) (d : List Char) :
    strsep_space (canon n ts d)
      = ("pinhole-".toList ++ fmt_u n, some ("ts-".toList ++ (fmt_u ts ++ (": ".toList ++ d)))) := by
  have h : ' ' ∉ "pinhole-".toList ++ fmt_u n := by
    simp only [List.mem_append, not_or]
    exact ⟨by decide, not_mem_fmt_u n ' ' (by decide)⟩
  have := strsep_space_append ("pinhole-".toList ++ fmt_u n)
    ("ts-".toList ++ (fmt_u ts ++ (": ".toList ++ d))) h
  rw [← this]
  simp [canon]

theorem strsep_space_canon_tail (ts : Nat) (d : List Char) :
    (strsep_space ("ts-".toList ++ (fmt_u ts ++ (": ".toList ++ d)))).2 = some d := by
  have h : ' ' ∉ "ts-".toList ++ (fmt_u ts ++ [':']) := by
    simp only [List.mem_append, not_or]
    exact ⟨by decide, not_mem_fmt_u ts ' ' (by decide), by decide⟩
  have := strsep_space_append ("ts-".toList ++ (fmt_u ts ++ [':'])) d h
  have e : "ts-".toList ++ (fmt_u ts ++ (": ".toList ++ d))
      = ("ts-".toList ++ (fmt_u ts ++ [':'])) ++ ' ' :: d := by simp
  rw [e, this]

theorem strtok_space_canon (n ts : Nat) (d : List Char) :
    strtok_space (canon n ts d) = "pinhole-".toList ++ fmt_u n := by
  have e0 : canon n ts d = 'p' :: ("inhole-".toList ++ (fmt_u n ++ (" ts-".toList ++ (fmt_u ts ++ (": ".toList ++ d))))) := rfl
  have := strsep_space_canon n ts d
  rw [e0] at this ⊢
  simp only [strtok_space]
  rw [if_neg (by decide), this]

theorem sscanf_ts_canon (ts t0 : Nat) (d : List Char) (hts : ts < 4294967296) :
    sscanf_ts ("ts-".toList ++ (fmt_u ts ++ (": ".toList ++ d))) t0 = ts := by
  have e2 : scan_subject (fmt_u ts ++ (": ".toList ++ d)) = Subject.num false ts (": ".toList ++ d) :=
    scan_subject_fmt_u ts _ (by intro c cs h; cases h; decide)
  simp only [sscanf_ts, match_literal_append, e2, conv_u_pos ts hts]

/-! ## The label written by `add_pinhole` -/

theorem fmt_d_nonneg (n : Nat) : fmt_d (n : Int) = fmt_u n := by
  simp [fmt_d]

theorem canon_eq (n ts : Nat) (d : List Char) : canon n ts d = label_front n ts ++ d := by
  simp [canon, label_front, fmt_d_nonneg]

theorem label_front_length (n ts k : Nat) (hk : 1 ≤ k) (hn : n < 10 ^ k)
    (hts : ts < 4294967296) : (label_front n ts).length ≤ 24 + k := by
  have h1 := fmt_u_length n k hk hn
  have h2 := fmt_u_length ts 10 (by decide) (by omega)
  simp only [label_front, fmt_d_nonneg, List.length_append]
  have e1 : "pinhole-".toList.length = 8 := rfl
  have e2 : " ts-".toList.length = 4 := rfl
  have e3 : ": ".toList.length = 2 := rfl
  omega

theorem snprintf_label (L n ts k : Nat) (desc : List Char) (hk : 1 ≤ k) (hn : n < 10 ^ k)
    (hts : ts < 4294967296) (hL : 25 + k ≤ L) :
    snprintf L (PINEHOLE_LABEL_FORMAT n ts desc)
      = canon n ts (desc.take (L - 1 - (label_front n ts).length)) := by
  have hlen := label_front_length n ts k hk hn hts
  have e : PINEHOLE_LABEL_FORMAT n ts desc = label_front n ts ++ desc := by
    simp [PINEHOLE_LABEL_FORMAT, label_front]
  rw [canon_eq, snprintf, e, List.take_append_eq_append_take,
    List.take_of_length_le (by omega)]

theorem toUInt32_of_lt (ts : Nat) (h : ts < 4294967296) : toUInt32 (ts : Int) = ts := by
  simp only [toUInt32]
  omega

theorem strlcpy_snprintf (L : Nat) (s : List Char) (h : 1 ≤ L) :
    strlcpy [] (snprintf L s) L = snprintf L s := by
  simp only [strlcpy, snprintf]
  rw [if_neg (by omega), List.take_take]
  simp

/-! ## The ioctl primitives on a store without failures -/

theorem ioctl_fault_nil (st : State) (h : st.faults = []) : ioctl_fault st = (false, st) := by
  simp [ioctl_fault, h]

theorem DIOCBEGINADDRS_ok (st : State) (h : st.faults = []) : DIOCBEGINADDRS st = (true, st) := by
  simp [DIOCBEGINADDRS, ioctl_fault_nil st h]

theorem DIOCGETRULES_ok (st : State) (h : st.faults = []) :
    DIOCGETRULES st = (some (st.ticket, st.rules.length), st) := by
  simp [DIOCGETRULES, ioctl_fault_nil st h]

theorem DIOCGETRULE_ok (st : State) (nr : Nat) (h : st.faults = []) :
    DIOCGETRULE st st.ticket nr = (st.rules[nr]?, st) := by
  simp [DIOCGETRULE, ioctl_fault_nil st h]

theorem GET_TICKET_ok (st : State) (h : st.faults = []) :
    DIOCCHANGERULE_GET_TICKET st
      = (some (st.ticket + 1), { st with ticket := st.ticket + 1 }) := by
  simp [DIOCCHANGERULE_GET_TICKET, ioctl_fault_nil st h]

theorem ADD_TAIL_ok (st : State) (rule : pf_rule) (h : st.faults = []) :
    DIOCCHANGERULE_ADD_TAIL st st.ticket rule
      = (true, { st with rules := st.rules ++ [rule], ticket := st.ticket + 1 }) := by
  simp [DIOCCHANGERULE_ADD_TAIL, ioctl_fault_nil st h]

theorem REMOVE_ok (st : State) (nr : Nat) (h : st.faults = []) (hnr : nr < st.rules.length) :
    DIOCCHANGERULE_REMOVE st st.ticket nr
      = (true, { st with rules := st.rules.eraseIdx nr, ticket := st.ticket + 1 }) := by
  simp [DIOCCHANGERULE_REMOVE, ioctl_fault_nil st h, hnr]

/-- On an open device with no failing exchange `add_pinhole` appends its rule
and hands out the current `next_uid`. -/
theorem add_pinhole_ok (cfg : Config) (st : State) (a : AddArgs) (hd : 0 ≤ st.dev)
    (hf : st.faults = []) :
    add_pinhole_args cfg st a
      = (st.next_uid, { st with rules := st.rules ++ [rule_of cfg st.next_uid a]
                                ticket := st.ticket + 2
                                next_uid := advance_uid st.next_uid }) := by
  have hcommit : ∀ rule, add_pinhole_commit st rule
      = (st.next_uid, { st with rules := st.rules ++ [rule], ticket := st.ticket + 2
                                next_uid := advance_uid st.next_uid }) := by
    intro rule
    have h1 := GET_TICKET_ok st hf
    have h2 := ADD_TAIL_ok { st with ticket := st.ticket + 1 } rule hf
    simp only [add_pinhole_commit, h1]
    simp only [h2]
  simp only [add_pinhole_args, add_pinhole, rule_of, if_neg (not_lt.2 hd)]
  cases cfg.PF_NEWSTYLE
  · simp only [DIOCBEGINADDRS_ok st hf, hcommit, Bool.false_eq_true, if_false]
  · simp only [hcommit, if_true]

theorem advance_uid_eq (n : Int) (h1 : 1 ≤ n) (h2 : n ≤ 65534) :
    advance_uid n = n % 65534 + 1 := by
  simp only [advance_uid, toInt32]
  split <;> omega

/-! ## What the exchanges leave untouched, failures included -/

theorem State.after_refl (st : State) : State.after st st :=
  ⟨rfl, rfl, List.Sublist.refl _, fun h => h⟩

theorem State.after_trans {a b c : State} (h1 : State.after a b) (h2 : State.after b c) :
    State.after a c :=
  ⟨h2.1.trans h1.1, h2.2.1.trans h1.2.1, h2.2.2.1.trans h1.2.2.1, fun h => h2.2.2.2 (h1.2.2.2 h)⟩

theorem ioctl_fault_after (st : State) : State.after st (ioctl_fault st).2 := by
  unfold ioctl_fault
  split
  · exact State.after_refl st
  · rename_i b bs h
    exact ⟨rfl, rfl, List.Sublist.refl _, fun h2 => by simp [h2] at h⟩

theorem DIOCBEGINADDRS_after (st : State) : State.after st (DIOCBEGINADDRS st).2 :=
  ioctl_fault_after st

theorem DIOCGETRULES_after (st : State) : State.after st (DIOCGETRULES st).2 := by
  unfold DIOCGETRULES
  split <;> exact ioctl_fault_after st

theorem DIOCGETRULE_after (st : State) (t nr : Nat) : State.after st (DIOCGETRULE st t nr).2 := by
  unfold DIOCGETRULE
  split
  · exact ioctl_fault_after st
  · split <;> exact ioctl_fault_after st

theorem GET_TICKET_after (st : State) : State.after st (DIOCCHANGERULE_GET_TICKET st).2 := by
  unfold DIOCCHANGERULE_GET_TICKET
  have h := ioctl_fault_after st
  split
  · exact h
  · exact ⟨h.1, h.2.1, h.2.2.1, h.2.2.2⟩

theorem REMOVE_after (st : State) (t nr : Nat) :
    State.after st (DIOCCHANGERULE_REMOVE st t nr).2 := by
  unfold DIOCCHANGERULE_REMOVE
  have h := ioctl_fault_after st
  split
  · exact h
  · split
    · exact ⟨h.1, h.2.1, List.eraseIdx_sublist _ _, h.2.2.2⟩
    · exact h

theorem delete_pinhole_loop_after (cfg : Config) (ticket uid todo i : Nat) (st : State) :
    State.after st (delete_pinhole_loop cfg ticket uid todo i st).2 := by
  induction todo generalizing i st with
  | zero => exact State.after_refl st
  | succ todo ih =>
    have h1 := DIOCGETRULE_after st ticket i
    rw [delete_pinhole_loop]
    split
    · rename_i st1 e; rw [e] at h1; exact h1
    · rename_i r st1 e
      rw [e] at h1
      split
      · have h2 := GET_TICKET_after st1
        split
        · rename_i st2 e2; rw [e2] at h2; exact State.after_trans h1 h2
        · rename_i t st2 e2
          rw [e2] at h2
          have h3 := REMOVE_after st2 t i
          split
          · rename_i st3 e3; rw [e3] at h3
            exact State.after_trans h1 (State.after_trans h2 h3)
          · rename_i st3 e3; rw [e3] at h3
            exact State.after_trans h1 (State.after_trans h2 h3)
      · exact State.after_trans h1 (ih _ _)

theorem delete_pinhole_after (cfg : Config) (st : State) (uid : Nat) :
    State.after st (delete_pinhole cfg st uid).2 := by
  unfold delete_pinhole
  split
  · exact State.after_refl st
  · have h1 := DIOCGETRULES_after st
    split
    · rename_i st1 e; rw [e] at h1; exact h1
    · rename_i t n st1 e; rw [e] at h1
      exact State.after_trans h1 (delete_pinhole_loop_after _ _ _ _ _ _)

theorem clean_pinhole_loop_after (now todo ticket : Nat) (acc : CleanAcc) (st : State) :
    State.after st (clean_pinhole_loop now todo ticket acc st).2 := by
  induction todo generalizing ticket acc st with
  | zero => exact State.after_refl st
  | succ i ih =>
    have h1 := DIOCGETRULE_after st ticket i
    rw [clean_pinhole_loop]
    split
    · rename_i st1 e; rw [e] at h1; exact h1
    · rename_i r st1 e
      rw [e] at h1
      split
      · split
        · have h2 := GET_TICKET_after st1
          split
          · rename_i st2 e2; rw [e2] at h2; exact State.after_trans h1 h2
          · rename_i t st2 e2
            rw [e2] at h2
            have h3 := REMOVE_after st2 t i
            split
            · rename_i st3 e3; rw [e3] at h3
              exact State.after_trans h1 (State.after_trans h2 h3)
            · rename_i st3 e3; rw [e3] at h3
              have h4 := DIOCGETRULES_after st3
              split
              · rename_i st4 e4; rw [e4] at h4
                exact State.after_trans h1 (State.after_trans h2 (State.after_trans h3 h4))
              · rename_i t1 n1 st4 e4; rw [e4] at h4
                exact State.after_trans h1 (State.after_trans h2 (State.after_trans h3
                  (State.after_trans h4 (ih _ _ _))))
        · exact State.after_trans h1 (ih _ _ _)
      · exact State.after_trans h1 (ih _ _ _)

/-! ## The allocation sequence -/

theorem add_results_seq (cfg : Config) (ops : List Op) (hc : ∀ op ∈ ops, op.isClean = false) :
    ∀ (st : State) (j : Nat), 0 ≤ st.dev → st.faults = [] →
      st.next_uid = ((j % 65534 : Nat) : Int) + 1 →
      ∀ k, k < (add_results cfg st ops).length →
        (add_results cfg st ops)[k]? = some ((((j + k) % 65534 : Nat) : Int) + 1) := by
  induction ops with
  | nil => intro st j _ _ _ k hk; simp [add_results] at hk
  | cons op ops ih =>
    intro st j hd hf hj k hk
    have hc2 : ∀ op ∈ ops, op.isClean = false := fun o ho => hc o (List.mem_cons_of_mem _ ho)
    cases op with
    | add a =>
      have hstep : step cfg st (Op.add a) = add_pinhole_args cfg st a := rfl
      have hok := add_pinhole_ok cfg st a hd hf
      have hnext : advance_uid st.next_uid = (((j + 1) % 65534 : Nat) : Int) + 1 := by
        rw [advance_uid_eq _ (by omega) (by omega), hj]
        omega
      simp only [add_results, Op.isAdd, if_true, hstep, hok] at hk ⊢
      cases k with
      | zero => simp [hj]
      | succ k =>
        simp only [List.length_cons, Nat.add_lt_add_iff_right] at hk
        have := ih hc2 _ (j + 1) (by simpa using hd) (by simpa using hf) hnext k hk
        simp only [List.getElem?_cons_succ]
        rw [this]
        congr 3
        omega
    | delete uid =>
      have hstep : step cfg st (Op.delete uid) = delete_pinhole cfg st uid := rfl
      have ha := delete_pinhole_after cfg st uid
      simp only [add_results, Op.isAdd, Bool.false_eq_true, if_false, hstep] at hk ⊢
      exact ih hc2 _ j (by rw [ha.1]; exact hd) (ha.2.2.2 hf) (by rw [ha.2.1]; exact hj) k hk
    | update uid ts =>
      simp only [add_results, Op.isAdd, Bool.false_eq_true, if_false, step, update_pinhole] at hk ⊢
      exact ih hc2 _ j hd hf hj k hk
    | clean now nt =>
      have := hc (Op.clean now nt) (List.mem_cons_self _ _)
      simp [Op.isClean] at this

/-- C5. Id allocation sequence: from `next_uid = 1`, on an open device where no
exchange fails, through any calls other than `clean_pinhole_list`, the
`add_pinhole` call number `k + 1` returns `(k mod 65534) + 1`; hence no call
returns 0 or 65535 and the call number 65535 returns 1 again. -/
theorem add_pinhole_sequence (cfg : Config) (st : State) (ops : List Op)
    (hd : 0 ≤ st.dev) (hf : st.faults = []) (h1 : st.next_uid = 1)
    (hc : ∀ op ∈ ops, op.isClean = false) (k : Nat)
    (hk : k < (add_results cfg st ops).length) :
    (add_results cfg st ops)[k]? = some (((k % 65534 : Nat) : Int) + 1)
    ∧ (∀ u ∈ add_results cfg st ops, 1 ≤ u ∧ u ≤ 65534)
    ∧ (k = 65534 → (add_results cfg st ops)[k]? = some 1) := by
  have hall := add_results_seq cfg ops hc st 0 hd hf (by simp [h1])
  have hk2 := hall k hk
  simp only [Nat.zero_add] at hk2
  refine ⟨hk2, ?_, ?_⟩
  · intro u hu
    obtain ⟨i, hi, rfl⟩ := List.getElem_of_mem hu
    have h3 := hall i hi
    rw [List.getElem?_eq_getElem hi] at h3
    simp only [Nat.zero_add, Option.some.injEq] at h3
    rw [h3]
    omega
  · intro h; rw [hk2, h]; rfl

/-- Witness of `add_pinhole_sequence`: three calls from the start-up state. -/
theorem add_pinhole_sequence_witness :
    (add_results sample_cfg (State.init 3 [])
      [Op.add sample_args, Op.add sample_args, Op.add sample_args])[2]? = some 3 :=
  (add_pinhole_sequence sample_cfg (State.init 3 [])
    [Op.add sample_args, Op.add sample_args, Op.add sample_args]
    (by decide) rfl rfl (by decide) 2 (by decide)).1

/-! ## The sweep of `clean_pinhole_list` -/

theorem eraseIdx_append_cons (a b : List pf_rule) (r : pf_rule) :
    (a ++ r :: b).eraseIdx a.length = a ++ b := by
  induction a with
  | nil => rfl
  | cons x a ih => simp [List.eraseIdx, ih]

theorem getElem?_append_cons (a b : List pf_rule) (r : pf_rule) :
    (a ++ r :: b)[a.length]? = some r := by
  rw [List.getElem?_append_right (Nat.le_refl _)]
  simp

theorem filter_not_expired_single (now : Nat) (r : pf_rule) :
    [r].filter (fun x => !expired now x) = if expired now r then [] else [r] := by
  cases h : expired now r <;> simp [List.filter, h]

/-- The loop, started at the end of `front`, on a store without failures:
it keeps the rules of `front` that are not expired and leaves `back` alone. -/
theorem clean_pinhole_loop_spec (now : Nat) (front : List pf_rule) :
    ∀ (back : List pf_rule) (acc : CleanAcc) (st : State),
      st.faults = [] → st.rules = front ++ back →
      ∃ t, clean_pinhole_loop now front.length st.ticket acc st
        = (some (front.foldr (CleanAcc.visit now) acc),
           { st with rules := front.filter (fun x => !expired now x) ++ back, ticket := t }) := by
  induction front using List.reverseRecOn with
  | nil =>
    intro back acc st _ hr
    exact ⟨st.ticket, by simp [clean_pinhole_loop, ← hr]⟩
  | append_singleton front r ih =>
    intro back acc st hf hr
    have hlen : (front ++ [r]).length = front.length + 1 := by simp
    have hr2 : st.rules = front ++ r :: back := by simp [hr]
    have hget : DIOCGETRULE st st.ticket front.length = (some r, st) := by
      rw [DIOCGETRULE_ok st _ hf, hr2, getElem?_append_cons]
    rw [hlen, List.foldr_append, List.filter_append, filter_not_expired_single]
    simp only [List.foldr_cons, List.foldr_nil]
    rw [clean_pinhole_loop]
    simp only [hget]
    cases hs : sscanf_SKIPDESC r.label with
    | two uid ts =>
      simp only []
      by_cases hle : ts ≤ now
      · have hexp : expired now r = true := by simp [expired, hs, hle]
        have hv : CleanAcc.visit now r acc = { acc with n := acc.n + 1 } := by
          simp [CleanAcc.visit, hs, hle]
        have hidx : front.length < st.rules.length := by rw [hr2]; simp
        have h2 := REMOVE_ok { st with ticket := st.ticket + 1 } front.length hf hidx
        have h3 := DIOCGETRULES_ok
          { st with rules := st.rules.eraseIdx front.length, ticket := st.ticket + 1 + 1 } hf
        simp only [if_pos hle, GET_TICKET_ok st hf, h2, h3, hexp, hv, if_true]
        obtain ⟨t, ht⟩ := ih back { acc with n := acc.n + 1 }
          { st with rules := st.rules.eraseIdx front.length, ticket := st.ticket + 1 + 1 } hf
          (by simp only [hr2, eraseIdx_append_cons])
        refine ⟨t, ?_⟩
        rw [ht]
        simp
      · have hexp : expired now r = false := by simp [expired, hs, hle]
        have hv : CleanAcc.visit now r acc = acc.keep uid ts := by
          simp [CleanAcc.visit, hs, hle]
        simp only [if_neg hle, hexp, hv]
        obtain ⟨t, ht⟩ := ih (r :: back) (acc.keep uid ts) st hf hr2
        refine ⟨t, ?_⟩
        rw [ht]
        simp
    | eof | none | one uid =>
      have hexp : expired now r = false := by simp [expired, hs]
      have hv : CleanAcc.visit now r acc = acc := by simp [CleanAcc.visit, hs]
      simp only [hexp, hv]
      obtain ⟨t, ht⟩ := ih (r :: back) acc st hf hr2
      refine ⟨t, ?_⟩
      rw [ht]
      simp

theorem conv_u_lt (neg : Bool) (mag : Nat) : conv_u neg mag < 4294967296 := by
  simp only [conv_u]
  exact Nat.mod_lt _ (by decide)

theorem sscanf_SKIPDESC_ts_lt (label : List Char) (uid : Int) (ts : Nat)
    (h : sscanf_SKIPDESC label = Scan.two uid ts) : ts < 4294967296 := by
  unfold sscanf_SKIPDESC at h
  split at h
  · split at h <;> cases h
  · split at h
    · cases h
    · cases h
    · simp only [] at h
      split at h
      · cases h
      · split at h
        · cases h
        · cases h
        · cases h
          exact conv_u_lt _ _

theorem pinhole_timestamps_filter (now : Nat) (rules : List pf_rule) :
    pinhole_timestamps (rules.filter (fun x => !expired now x)) = live_timestamps now rules := by
  induction rules with
  | nil => rfl
  | cons r rs ih =>
    cases hs : sscanf_SKIPDESC r.label with
    | two uid ts =>
      by_cases hle : ts ≤ now
      · have hexp : expired now r = true := by simp [expired, hs, hle]
        simp [List.filter, hexp, live_timestamps, hs, hle, ih]
      · have hexp : expired now r = false := by simp [expired, hs, hle]
        simp [List.filter, hexp, live_timestamps, pinhole_timestamps, hs, hle, ih]
    | eof | none | one uid =>
      have hexp : expired now r = false := by simp [expired, hs]
      simp [List.filter, hexp, live_timestamps, pinhole_timestamps, hs, ih]

theorem foldr_visit_n (now : Nat) (front : List pf_rule) (acc : CleanAcc) :
    (front.foldr (CleanAcc.visit now) acc).n
      = acc.n + ((front.filter (expired now)).length : Int) := by
  induction front with
  | nil => simp
  | cons r rs ih =>
    simp only [List.foldr_cons]
    cases hs : sscanf_SKIPDESC r.label with
    | two uid ts =>
      by_cases hle : ts ≤ now
      · have hexp : expired now r = true := by simp [expired, hs, hle]
        simp only [CleanAcc.visit, hs, if_pos hle, ih, List.filter, hexp, List.length_cons]
        push_cast
        ring
      · have hexp : expired now r = false := by simp [expired, hs, hle]
        simp only [CleanAcc.visit, hs, if_neg hle, CleanAcc.keep, ih, List.filter, hexp]
    | eof | none | one uid =>
      have hexp : expired now r = false := by simp [expired, hs]
      simp only [CleanAcc.visit, hs, ih, List.filter, hexp]

theorem foldr_visit_min_ts (now : Nat) (front : List pf_rule) (acc : CleanAcc) :
    (front.foldr (CleanAcc.visit now) acc).min_ts ≤ acc.min_ts
    ∧ (∀ t ∈ live_timestamps now front, (front.foldr (CleanAcc.visit now) acc).min_ts ≤ t)
    ∧ ((front.foldr (CleanAcc.visit now) acc).min_ts = acc.min_ts
        ∨ (front.foldr (CleanAcc.visit now) acc).min_ts ∈ live_timestamps now front) := by
  induction front with
  | nil => simp [live_timestamps]
  | cons r rs ih =>
    obtain ⟨h1, h2, h3⟩ := ih
    simp only [List.foldr_cons]
    cases hs : sscanf_SKIPDESC r.label with
    | two uid ts =>
      by_cases hle : ts ≤ now
      · simp only [CleanAcc.visit, hs, if_pos hle, live_timestamps]
        exact ⟨h1, h2, h3⟩
      · simp only [CleanAcc.visit, hs, if_neg hle, live_timestamps, CleanAcc.keep,
          List.mem_cons]
        split
        · rename_i hlt
          refine ⟨by omega, ?_, Or.inr (Or.inl rfl)⟩
          rintro t (rfl | ht)
          · exact Nat.le_refl _
          · exact Nat.le_trans (Nat.le_of_lt hlt) (h2 t ht)
        · rename_i hlt
          refine ⟨h1, ?_, ?_⟩
          · rintro t (rfl | ht)
            · omega
            · exact h2 t ht
          · rcases h3 with h3 | h3
            · exact Or.inl h3
            · exact Or.inr (Or.inr h3)
    | eof | none | one uid =>
      simp only [CleanAcc.visit, hs, live_timestamps]
      exact ⟨h1, h2, h3⟩

theorem live_timestamps_lt (now : Nat) (rules : List pf_rule) :
    ∀ t ∈ live_timestamps now rules, t < 4294967296 := by
  induction rules with
  | nil => simp [live_timestamps]
  | cons r rs ih =>
    cases hs : sscanf_SKIPDESC r.label with
    | two uid ts =>
      have hlt := sscanf_SKIPDESC_ts_lt _ _ _ hs
      by_cases hle : ts ≤ now
      · simpa [live_timestamps, hs, hle] using ih
      · simp only [live_timestamps, hs, if_neg hle, List.mem_cons]
        rintro t (rfl | ht)
        · exact hlt
        · exact ih t ht
    | eof | none | one uid => simpa [live_timestamps, hs] using ih

/-- What `clean_pinhole_list` computes on an open device without failures. -/
theorem clean_pinhole_list_eq (st : State) (current_time : Int) (nt : Option Nat)
    (hd : 0 ≤ st.dev) (hf : st.faults = []) :
    ∃ t, clean_pinhole_list st current_time nt
      = (((st.rules.foldr (CleanAcc.visit (toUInt32 current_time)) CleanAcc.init).n,
          if (st.rules.foldr (CleanAcc.visit (toUInt32 current_time)) CleanAcc.init).min_ts
              ≠ UINT_MAX
          then nt.map (fun _ =>
            (st.rules.foldr (CleanAcc.visit (toUInt32 current_time)) CleanAcc.init).min_ts)
          else nt),
         { st with
           rules := st.rules.filter (fun x => !expired (toUInt32 current_time) x)
           ticket := t
           next_uid := reconcile_uid st.next_uid
             (st.rules.foldr (CleanAcc.visit (toUInt32 current_time)) CleanAcc.init).min_uid
             (st.rules.foldr (CleanAcc.visit (toUInt32 current_time)) CleanAcc.init).max_uid }) := by
  obtain ⟨t, ht⟩ := clean_pinhole_loop_spec (toUInt32 current_time) st.rules [] CleanAcc.init st hf
    (by simp)
  refine ⟨t, ?_⟩
  simp only [clean_pinhole_list, if_neg (not_lt.2 hd), DIOCGETRULES_ok st hf, ht,
    List.append_nil]

/-- C3, as amended. On an open device where no exchange fails,
`clean_pinhole_list` at time `now` (the clock value as an `unsigned int`)
leaves exactly the rules that are not pinholes with timestamp `<= now`, in
their order, returns the number of rules removed, and writes the minimum
timestamp of the surviving pinholes when that minimum is not `UINT_MAX`; it
writes nothing when no pinhole survives or all survivors carry `UINT_MAX`. -/
theorem clean_pinhole_list_spec (st : State) (current_time : Int) (nt : Option Nat)
    (hd : 0 ≤ st.dev) (hf : st.faults = []) :
    (clean_pinhole_list st current_time nt).2.rules
      = st.rules.filter (fun r => !expired (toUInt32 current_time) r)
    ∧ (clean_pinhole_list st current_time nt).1.1
      = ((st.rules.filter (expired (toUInt32 current_time))).length : Int)
    ∧ (∀ m ∈ pinhole_timestamps (clean_pinhole_list st current_time nt).2.rules,
        (∀ t ∈ pinhole_timestamps (clean_pinhole_list st current_time nt).2.rules, m ≤ t) →
        m ≠ UINT_MAX → (clean_pinhole_list st current_time nt).1.2 = nt.map (fun _ => m))
    ∧ ((∀ t ∈ pinhole_timestamps (clean_pinhole_list st current_time nt).2.rules,
          t = UINT_MAX) → (clean_pinhole_list st current_time nt).1.2 = nt) := by
  obtain ⟨t, ht⟩ := clean_pinhole_list_eq st current_time nt hd hf
  rw [ht]
  simp only [pinhole_timestamps_filter]
  obtain ⟨h1, h2, h3⟩ := foldr_visit_min_ts (toUInt32 current_time) st.rules CleanAcc.init
  have hlt := live_timestamps_lt (toUInt32 current_time) st.rules
  refine ⟨trivial, ?_, ?_, ?_⟩
  · simp [foldr_visit_n, CleanAcc.init]
  · intro m hm hmin hne
    have hmlt := hlt m hm
    have hle := h2 m hm
    simp only [UINT_MAX] at hne ⊢
    rcases h3 with h3 | h3
    · have hinit : CleanAcc.init.min_ts = 4294967295 := rfl
      omega
    · have := hmin _ h3
      have heq : (st.rules.foldr (CleanAcc.visit (toUInt32 current_time)) CleanAcc.init).min_ts
          = m := by omega
      rw [heq, if_pos (by omega)]
  · intro hall
    rcases h3 with h3 | h3
    · rw [h3]; simp [CleanAcc.init]
    · rw [hall _ h3]; simp

/-- Witness of `clean_pinhole_list_spec`: the scenario's pinhole (expiry 1000)
is removed at time 1001 and the call returns 1. -/
theorem clean_pinhole_list_spec_witness :
    (clean_pinhole_list scenario_state 1001 (some 0)).1.1
      = ((scenario_state.rules.filter (expired (toUInt32 1001))).length : Int) :=
  (clean_pinhole_list_spec scenario_state 1001 (some 0) (by decide) (by decide)).2.1

/-- C3 as stated fails: a pinhole with timestamp `UINT_MAX` survives the sweep
at time 0, it is the only survivor, and still nothing is written through
`next_timestamp` (the variable keeps its old content 0). -/
theorem clean_pinhole_list_sentinel :
    0 ≤ sentinel_state.dev ∧ sentinel_state.faults = []
    ∧ pinhole_timestamps (clean_pinhole_list sentinel_state 0 (some 0)).2.rules = [4294967295]
    ∧ (clean_pinhole_list sentinel_state 0 (some 0)).1.2 = some 0 := by
  decide

/-! ## Two defects of the reconciliation in `clean_pinhole_list` -/

/-- C8, the code at a failing input. One pinhole, id 5, survives the sweep;
`next_uid` is 1, so `5 - 32000 <= 1 <= 5` and the candidate should move to 6.
The `else if` leaves `min_uid` at `INT_MAX` for a rule that raised `max_uid`,
the window test fails, and `next_uid` stays 1. -/
theorem reconcile_single_survivor :
    live_ids 10 restart_state.rules = [5]
    ∧ restart_state.next_uid = 1
    ∧ (restart_state.rules.foldr (CleanAcc.visit 10) CleanAcc.init).min_uid = INT_MAX
    ∧ (restart_state.rules.foldr (CleanAcc.visit 10) CleanAcc.init).max_uid = 5
    ∧ (clean_pinhole_list restart_state 10 none).1.1 = 0
    ∧ (clean_pinhole_list restart_state 10 none).2.next_uid = 1 := by
  decide

/-- C10, the code at a failing input. With a surviving label of id `INT_MAX`
the assignment `next_uid = max_uid + 1` wraps to `INT_MIN`, which the test
`next_uid >= 65535` does not catch: `next_uid` leaves `[1,65534]`, and the next
`add_pinhole` hands out `INT_MIN`. -/
theorem reconcile_int_max_overflow :
    1 ≤ int_max_state.next_uid ∧ int_max_state.next_uid ≤ 65534
    ∧ (clean_pinhole_list int_max_state 10 none).1.1 = 0
    ∧ (clean_pinhole_list int_max_state 10 none).2.next_uid = -2147483648
    ∧ (add_pinhole_args sample_cfg (clean_pinhole_list int_max_state 10 none).2 sample_args).1
        = -2147483648 := by
  decide

/-- Apart from a surviving id `INT_MAX` the reconciliation keeps `next_uid` in
`[1,65534]`, whatever ids the labels carry. -/
theorem reconcile_uid_in_range (next_uid min_uid max_uid : Int) (h1 : 1 ≤ next_uid)
    (h2 : next_uid ≤ 65534) (hmax : max_uid < 2147483647) :
    1 ≤ reconcile_uid next_uid min_uid max_uid
    ∧ reconcile_uid next_uid min_uid max_uid ≤ 65534 := by
  simp only [reconcile_uid]
  split
  · rename_i hpos
    have e : toInt32 (max_uid + 1) = max_uid + 1 := by
      simp only [toInt32]
      omega
    rw [e]
    split <;> split <;> omega
  · omega

/-! ## The scan of `find_pinhole` -/

theorem find_pinhole_loop_spec (proto : Int) (rem_port saddr int_port daddr : Nat)
    (desc : Option (List Char)) (desc_len : Nat) (timestamp : Option Nat)
    (back : List pf_rule) :
    ∀ (front : List pf_rule) (st : State), st.faults = [] → st.rules = front ++ back →
      find_pinhole_loop st.ticket proto rem_port saddr int_port daddr desc desc_len timestamp
          back.length front.length st
        = (find_in proto rem_port saddr int_port daddr desc desc_len timestamp back, st) := by
  induction back with
  | nil => intro front st _ _; rfl
  | cons r back ih =>
    intro front st hf hr
    have hget : DIOCGETRULE st st.ticket front.length = (some r, st) := by
      rw [DIOCGETRULE_ok st _ hf, hr, getElem?_append_cons]
    have hnext := ih (front ++ [r]) st hf (by simp [hr])
    simp only [List.length_append, List.length_singleton] at hnext
    simp only [List.length_cons, find_pinhole_loop, hget, find_in]
    split
    · split <;> first | rfl | exact hnext
    · exact hnext

/-- On an open device without failures `find_pinhole` is the scan of the rule
list for the converted arguments, and leaves the state alone. -/
theorem find_pinhole_eq (cfg : Config) (st : State) (ifname rem_host : Option (List Char))
    (rem_port : Nat) (int_client : List Char) (int_port : Nat) (proto : Int)
    (desc : Option (List Char)) (desc_len : Nat) (timestamp : Option Nat) (saddr0 daddr0 : Nat)
    (hd : 0 ≤ st.dev) (hf : st.faults = []) :
    find_pinhole cfg st ifname rem_host rem_port int_client int_port proto desc desc_len
        timestamp saddr0 daddr0
      = (find_in (toInt32 proto) (toUInt16 rem_port) (find_pinhole_saddr cfg rem_host saddr0)
          (toUInt16 int_port) ((cfg.inet_pton int_client).getD daddr0) desc desc_len timestamp
          st.rules, st) := by
  have h := find_pinhole_loop_spec (toInt32 proto) (toUInt16 rem_port)
    (find_pinhole_saddr cfg rem_host saddr0) (toUInt16 int_port)
    ((cfg.inet_pton int_client).getD daddr0) desc desc_len timestamp st.rules [] st hf (by simp)
  simp only [find_pinhole, if_neg (not_lt.2 hd), DIOCGETRULES_ok st hf]
  exact h

theorem find_in_skip (proto : Int) (rem_port saddr int_port daddr : Nat)
    (desc : Option (List Char)) (desc_len : Nat) (timestamp : Option Nat)
    (r : pf_rule) (h : find_hit proto rem_port saddr int_port daddr r = false)
    (pre post : List pf_rule) :
    find_in proto rem_port saddr int_port daddr desc desc_len timestamp (pre ++ r :: post)
      = find_in proto rem_port saddr int_port daddr desc desc_len timestamp (pre ++ post) := by
  induction pre with
  | nil =>
    simp only [List.nil_append, find_in]
    simp only [find_hit, Bool.and_eq_false_iff, decide_eq_false_iff_not] at h
    split
    · rename_i hm
      rcases h with h | h
      · simp [hm] at h
      · split
        · rename_i uid ts hs
          simp [hs, Scan.ret] at h
        · rfl
    · rfl
  | cons x pre ih =>
    show find_in proto rem_port saddr int_port daddr desc desc_len timestamp
        (x :: (pre ++ r :: post))
      = find_in proto rem_port saddr int_port daddr desc desc_len timestamp (x :: (pre ++ post))
    simp only [find_in, ih]

theorem find_in_miss (proto : Int) (rem_port saddr int_port daddr : Nat)
    (desc : Option (List Char)) (desc_len : Nat) (timestamp : Option Nat)
    (rules : List pf_rule)
    (h : ∀ r ∈ rules, find_hit proto rem_port saddr int_port daddr r = false) :
    find_in proto rem_port saddr int_port daddr desc desc_len timestamp rules
      = ⟨-2, desc, timestamp⟩ := by
  induction rules with
  | nil => rfl
  | cons r rs ih =>
    have := find_in_skip proto rem_port saddr int_port daddr desc desc_len timestamp r
      (h r (List.mem_cons_self _ _)) [] rs
    simp only [List.nil_append] at this
    rw [this]
    exact ih (fun x hx => h x (List.mem_cons_of_mem _ hx))

theorem find_in_append_miss (proto : Int) (rem_port saddr int_port daddr : Nat)
    (desc : Option (List Char)) (desc_len : Nat) (timestamp : Option Nat)
    (pre post : List pf_rule)
    (h : ∀ r ∈ pre, find_hit proto rem_port saddr int_port daddr r = false) :
    find_in proto rem_port saddr int_port daddr desc desc_len timestamp (pre ++ post)
      = find_in proto rem_port saddr int_port daddr desc desc_len timestamp post := by
  induction pre with
  | nil => rfl
  | cons r rs ih =>
    have := find_in_skip proto rem_port saddr int_port daddr desc desc_len timestamp r
      (h r (List.mem_cons_self _ _)) [] (rs ++ post)
    simp only [List.nil_append] at this
    rw [List.cons_append, this]
    exact ih (fun x hx => h x (List.mem_cons_of_mem _ hx))

/-! ## Remote endpoints in `find_pinhole` -/

theorem find_hit_of_saddr_ne (proto : Int) (rem_port saddr int_port daddr : Nat) (r : pf_rule)
    (h : saddr ≠ r.src.addr) : find_hit proto rem_port saddr int_port daddr r = false := by
  simp [find_hit, find_pinhole_match, h]

/-- C7, as amended. `find_pinhole` compares the sixteen address bytes of the
remote endpoint and nothing else of it.  A rule that `add_pinhole` built with an
empty or `*` remote host is never the rule the scan stops at for a query whose
remote host converts to a non-zero address, and a rule built with a remote host
that converts to a non-zero address is never the one for a query with an empty
remote host: the scan does not stop at it, and the result is the same as on
the anchor without that rule, whatever the other criteria. -/
theorem find_pinhole_remote_exact (cfg : Config) (st : State) (pre post : List pf_rule)
    (uid : Int) (a : AddArgs) (ifname q_host : Option (List Char)) (rem_port : Nat)
    (int_client : List Char) (int_port : Nat) (proto : Int) (desc : Option (List Char))
    (desc_len : Nat) (timestamp : Option Nat) (saddr0 daddr0 : Nat)
    (hd : 0 ≤ st.dev) (hf : st.faults = [])
    (hr : st.rules = pre ++ rule_of cfg uid a :: post)
    (h : (rem_host_concrete a.rem_host = false
          ∧ ∃ c cs addr, q_host = some (c :: cs) ∧ cfg.inet_pton (c :: cs) = some addr
              ∧ addr ≠ 0)
        ∨ (rem_host_concrete a.rem_host = true
          ∧ (∃ addr, a.rem_host.bind cfg.inet_pton = some addr ∧ addr ≠ 0)
          ∧ (q_host = none ∨ q_host = some []))) :
    find_hit (toInt32 proto) (toUInt16 rem_port) (find_pinhole_saddr cfg q_host saddr0)
        (toUInt16 int_port) ((cfg.inet_pton int_client).getD daddr0) (rule_of cfg uid a) = false
    ∧ (find_pinhole cfg st ifname q_host rem_port int_client int_port proto desc desc_len
        timestamp saddr0 daddr0).1
      = (find_pinhole cfg { st with rules := pre ++ post } ifname q_host rem_port int_client
          int_port proto desc desc_len timestamp saddr0 daddr0).1 := by
  have hne : find_pinhole_saddr cfg q_host saddr0 ≠ (rule_of cfg uid a).src.addr := by
    rcases h with ⟨hw, c, cs, addr, hq, hp, hz⟩ | ⟨hc, ⟨addr, hp, hz⟩, hq⟩
    · simp [find_pinhole_saddr, hq, hp, rule_of, add_pinhole_rule, hw, hz]
    · have hs : find_pinhole_saddr cfg q_host saddr0 = 0 := by
        rcases hq with hq | hq <;> simp [find_pinhole_saddr, hq]
      simp only [hs, rule_of, add_pinhole_rule, hc, if_true, hp, Option.getD_some]
      exact fun e => hz e.symm
  have hmiss := find_hit_of_saddr_ne (toInt32 proto) (toUInt16 rem_port) _ (toUInt16 int_port)
    ((cfg.inet_pton int_client).getD daddr0) _ hne
  refine ⟨hmiss, ?_⟩
  rw [find_pinhole_eq cfg st _ _ _ _ _ _ _ _ _ _ _ hd hf,
    find_pinhole_eq cfg { st with rules := pre ++ post } _ _ _ _ _ _ _ _ _ _ _ hd hf, hr]
  exact find_in_skip _ _ _ _ _ _ _ _ _ hmiss pre post

/-- Witness of `find_pinhole_remote_exact`: the wildcard rule of
`wildcard_state` and a query for the remote host `2001:db8::1`. -/
theorem find_pinhole_remote_exact_witness :
    (find_pinhole sample_cfg wildcard_state none (some "2001:db8::1".toList) 0
        "2001:db8::2".toList 8080 6 none 0 none 0 0).1
      = (find_pinhole sample_cfg { wildcard_state with rules := [] ++ [] } none
          (some "2001:db8::1".toList) 0 "2001:db8::2".toList 8080 6 none 0 none 0 0).1 :=
  (find_pinhole_remote_exact sample_cfg wildcard_state [] [] 1
    { sample_args with rem_host := some ['*'] } none (some "2001:db8::1".toList) 0
    "2001:db8::2".toList 8080 6 none 0 none 0 0 (by decide) (by decide) (by decide)
    (Or.inl ⟨by decide, '2', "001:db8::1".toList, _, rfl, rfl, by decide⟩)).2

/-- C7 as stated fails. A rule installed with the wildcard remote host `*` is
returned for the query with the concrete remote host `::`, whose sixteen bytes
are zero like the unset address of the wildcard rule; and a rule installed with
the concrete remote host `::` is returned for a query with no remote host. -/
theorem find_pinhole_wildcard_confusion :
    (add_pinhole_args sample_cfg (State.init 3 [])
        { sample_args with rem_host := some ['*'] }).1 = 1
    ∧ (find_pinhole sample_cfg wildcard_state none (some [':', ':']) 0
        "2001:db8::2".toList 8080 6 none 0 none 7 7).1.ret = 1
    ∧ (add_pinhole_args sample_cfg (State.init 3 [])
        { sample_args with rem_host := some [':', ':'] }).1 = 1
    ∧ (find_pinhole sample_cfg unspecified_state none none 0
        "2001:db8::2".toList 8080 6 none 0 none 7 7).1.ret = 1 := by
  decide

/-! ## The rule built by `add_pinhole`, read back -/

theorem toUInt32_lt (x : Int) : toUInt32 x < 4294967296 := by
  simp only [toUInt32]
  omega

theorem rule_of_label (cfg : Config) (n : Nat) (a : AddArgs) (hL : 30 ≤ cfg.PF_RULE_LABEL_SIZE)
    (hn : n < 100000) :
    ∃ d, (rule_of cfg n a).label = canon n (toUInt32 a.timestamp) d
      ∧ strlcpy [] (rule_of cfg n a).label cfg.PF_RULE_LABEL_SIZE
          = canon n (toUInt32 a.timestamp) d := by
  have hlab := snprintf_label cfg.PF_RULE_LABEL_SIZE n (toUInt32 a.timestamp) 5 a.desc
    (by decide) (by norm_num; omega) (toUInt32_lt _) (by omega)
  refine ⟨_, hlab, ?_⟩
  rw [← hlab]
  exact strlcpy_snprintf _ _ (by omega)

theorem rule_of_sscanf (cfg : Config) (n : Nat) (a : AddArgs)
    (hL : 30 ≤ cfg.PF_RULE_LABEL_SIZE) (hn : n < 100000) :
    sscanf_SKIPDESC (rule_of cfg n a).label = Scan.two n (toUInt32 a.timestamp) := by
  obtain ⟨d, h, _⟩ := rule_of_label cfg n a hL hn
  rw [h]
  exact sscanf_SKIPDESC_canon n _ d (by omega) (toUInt32_lt _)

theorem label_start_eq (cfg : Config) (n : Nat) (hL : 30 ≤ cfg.PF_RULE_LABEL_SIZE)
    (hn : n < 65536) : label_start cfg n = "pinhole-".toList ++ fmt_u n := by
  have e8 : "pinhole-".toList.length = 8 := rfl
  have hl := fmt_u_length n 5 (by decide) (by norm_num; omega)
  simp only [label_start, toUInt16]
  rw [Nat.mod_eq_of_lt hn, snprintf, List.take_of_length_le]
  simp only [List.length_append]
  omega

theorem rule_of_delete_hit (cfg : Config) (n : Nat) (a : AddArgs)
    (hL : 30 ≤ cfg.PF_RULE_LABEL_SIZE) (hn : n < 65536) :
    delete_hit cfg n (rule_of cfg n a) = true := by
  obtain ⟨d, _, h⟩ := rule_of_label cfg n a hL (by omega)
  simp only [delete_hit, h, strtok_space_canon, label_start_eq cfg n hL hn, decide_True]

theorem ntohs_htons (x : Nat) (h : x < 65536) : ntohs (htons x) = x := by
  have hq : x / 256 < 256 := by omega
  have h1 : x / 256 % 256 = x / 256 := Nat.mod_eq_of_lt hq
  have h2 : (x % 256 * 256 + x / 256) % 256 = x / 256 := by omega
  have h3 : (x % 256 * 256 + x / 256) / 256 = x % 256 := by omega
  have h4 : x % 256 % 256 = x % 256 := by omega
  simp only [ntohs, htons, h1, h2, h3, h4]
  omega

theorem toUInt16_lt (x : Nat) : toUInt16 x < 65536 := by
  simp only [toUInt16]
  omega

/-- The rule built from a specification agrees with that specification in the
five-fold comparison, as soon as the protocol fits a byte and the addresses
convert (or the remote host is absent). -/
theorem rule_of_match (cfg : Config) (uid : Int) (a : AddArgs) (saddr0 daddr0 : Nat)
    (hproto : 0 ≤ a.proto ∧ a.proto ≤ 255)
    (hint : (cfg.inet_pton a.int_client).isSome = true)
    (hrem : a.rem_host = none ∨ a.rem_host = some []
      ∨ (rem_host_concrete a.rem_host = true
          ∧ (a.rem_host.bind cfg.inet_pton).isSome = true)) :
    find_pinhole_match (toInt32 a.proto) (toUInt16 a.rem_port)
      (find_pinhole_saddr cfg a.rem_host saddr0) (toUInt16 a.int_port)
      ((cfg.inet_pton a.int_client).getD daddr0) (rule_of cfg uid a) = true := by
  have h1 : toInt32 a.proto = (((toInt32 a.proto % 256).toNat : Nat) : Int) := by
    simp only [toInt32]
    omega
  have h2 : toUInt16 a.rem_port
      = ntohs (if toUInt16 a.rem_port ≠ 0 then htons (toUInt16 a.rem_port) else 0) := by
    split
    · exact (ntohs_htons _ (toUInt16_lt _)).symm
    · rename_i h0
      have : toUInt16 a.rem_port = 0 := by simpa using h0
      rw [this]
      rfl
  have h3 : find_pinhole_saddr cfg a.rem_host saddr0
      = (if rem_host_concrete a.rem_host then (a.rem_host.bind cfg.inet_pton).getD 0 else 0) := by
    rcases hrem with h | h | ⟨hc, hs⟩
    · simp [find_pinhole_saddr, h, rem_host_concrete]
    · simp [find_pinhole_saddr, h, rem_host_concrete]
    · cases hh : a.rem_host with
      | none => simp [hh, rem_host_concrete] at hc
      | some s =>
        cases s with
        | nil => simp [hh, rem_host_concrete] at hc
        | cons c cs =>
          rw [hh] at hs hc
          obtain ⟨v, hv⟩ := Option.isSome_iff_exists.1 hs
          simp only [Option.bind] at hv
          simp [find_pinhole_saddr, hc, hv]
  have h4 : toUInt16 a.int_port = ntohs (htons (toUInt16 a.int_port)) :=
    (ntohs_htons _ (toUInt16_lt _)).symm
  have h5 : (cfg.inet_pton a.int_client).getD daddr0 = (cfg.inet_pton a.int_client).getD 0 := by
    obtain ⟨v, hv⟩ := Option.isSome_iff_exists.1 hint
    simp [hv]
  simp only [find_pinhole_match, rule_of, add_pinhole_rule, Bool.and_eq_true, decide_eq_true_eq]
  exact ⟨⟨⟨⟨h1, h2⟩, h3⟩, h4⟩, h5⟩

/-! ## `add_pinhole` followed by `find_pinhole` -/

/-- C2, as amended. On an open device where no exchange fails, with `next_uid`
in `[1,65534]` and a label array of at least 30 bytes: if the protocol fits a
byte, the local host converts, the remote host is absent, empty or converts,
and no pinhole rule already in the anchor agrees with the five criteria, then
`add_pinhole` returns `next_uid` and `find_pinhole`, called right after with the
same remote host, remote port, local host, local port and protocol, returns
that id together with the timestamp given to `add_pinhole`. -/
theorem add_then_find (cfg : Config) (st : State) (a : AddArgs)
    (ifname : Option (List Char)) (desc : Option (List Char)) (desc_len : Nat)
    (timestamp : Option Nat) (saddr0 daddr0 : Nat)
    (hL : 30 ≤ cfg.PF_RULE_LABEL_SIZE) (hd : 0 ≤ st.dev) (hf : st.faults = [])
    (hu1 : 1 ≤ st.next_uid) (hu2 : st.next_uid ≤ 65534)
    (hproto : 0 ≤ a.proto ∧ a.proto ≤ 255)
    (hint : (cfg.inet_pton a.int_client).isSome = true)
    (hrem : a.rem_host = none ∨ a.rem_host = some []
      ∨ (rem_host_concrete a.rem_host = true
          ∧ (a.rem_host.bind cfg.inet_pton).isSome = true))
    (hfresh : ∀ r ∈ st.rules, find_hit (toInt32 a.proto) (toUInt16 a.rem_port)
      (find_pinhole_saddr cfg a.rem_host saddr0) (toUInt16 a.int_port)
      ((cfg.inet_pton a.int_client).getD daddr0) r = false) :
    (add_pinhole_args cfg st a).1 = st.next_uid
    ∧ (find_pinhole cfg (add_pinhole_args cfg st a).2 ifname a.rem_host a.rem_port a.int_client
        a.int_port a.proto desc desc_len timestamp saddr0 daddr0).1.ret
        = (add_pinhole_args cfg st a).1
    ∧ (find_pinhole cfg (add_pinhole_args cfg st a).2 ifname a.rem_host a.rem_port a.int_client
        a.int_port a.proto desc desc_len timestamp saddr0 daddr0).1.timestamp
        = timestamp.map (fun _ => toUInt32 a.timestamp) := by
  obtain ⟨n, hn⟩ : ∃ n : Nat, st.next_uid = (n : Int) := ⟨st.next_uid.toNat, by omega⟩
  have hn2 : n < 100000 := by omega
  have hscan := rule_of_sscanf cfg n a hL hn2
  have hmatch := rule_of_match cfg (n : Int) a saddr0 daddr0 hproto hint hrem
  rw [add_pinhole_ok cfg st a hd hf]
  simp only []
  rw [find_pinhole_eq cfg _ _ _ _ _ _ _ _ _ _ _ _ (by simpa using hd) (by simpa using hf)]
  simp only []
  rw [find_in_append_miss _ _ _ _ _ _ _ _ _ _ hfresh, hn]
  simp only [find_in, hmatch, hscan, if_true, and_self]

/-- Witness of `add_then_find`: the scenario on the start-up state. -/
theorem add_then_find_witness :
    (find_pinhole sample_cfg (add_pinhole_args sample_cfg (State.init 3 []) sample_args).2 none
        sample_args.rem_host sample_args.rem_port sample_args.int_client sample_args.int_port
        sample_args.proto none 0 (some 0) 0 0).1.ret
      = (add_pinhole_args sample_cfg (State.init 3 []) sample_args).1 :=
  (add_then_find sample_cfg (State.init 3 []) sample_args none none 0 (some 0) 0 0
    (by decide) (by decide) rfl (by decide) (by decide) (by decide) (by decide)
    (Or.inr (Or.inr (by decide))) (by intro r hr; cases hr)).2.1

/-- C2 as stated fails. (1) With a pinhole of the same criteria already in the
anchor, the second `add_pinhole` returns 2 and `find_pinhole` returns 1, the id
of the first match. (2) For the wildcard host `*` the address compared by
`find_pinhole` is whatever the uninitialised `saddr` holds (here 1): the rule is
not found. (3) The protocol 262 is stored as the byte 6 and compared as 262:
the rule is not found. -/
theorem add_then_find_fails :
    (add_pinhole_args sample_cfg scenario_state sample_args).1 = 2
    ∧ (find_pinhole sample_cfg (add_pinhole_args sample_cfg scenario_state sample_args).2 none
        sample_args.rem_host sample_args.rem_port sample_args.int_client sample_args.int_port
        sample_args.proto none 0 none 0 0).1.ret = 1
    ∧ (add_pinhole_args sample_cfg (State.init 3 [])
        { sample_args with rem_host := some ['*'] }).1 = 1
    ∧ (find_pinhole sample_cfg wildcard_state none (some ['*']) sample_args.rem_port
        sample_args.int_client sample_args.int_port sample_args.proto none 0 none 1 1).1.ret = -2
    ∧ (add_pinhole_args sample_cfg (State.init 3 []) { sample_args with proto := 262 }).1 = 1
    ∧ (find_pinhole sample_cfg
        (add_pinhole_args sample_cfg (State.init 3 []) { sample_args with proto := 262 }).2 none
        sample_args.rem_host sample_args.rem_port sample_args.int_client sample_args.int_port
        262 none 0 none 0 0).1.ret = -2 := by
  decide

/-! ## `delete_pinhole` followed by `find_pinhole` -/

theorem delete_pinhole_loop_spec (cfg : Config) (uid : Nat) (r : pf_rule) (post : List pf_rule)
    (hr : delete_hit cfg uid r = true) (pre : List pf_rule) :
    ∀ (done : List pf_rule) (st : State), st.faults = [] →
      st.rules = done ++ (pre ++ r :: post) →
      (∀ x ∈ pre, delete_hit cfg uid x = false) →
      delete_pinhole_loop cfg st.ticket uid (pre ++ r :: post).length done.length st
        = (0, { st with rules := done ++ (pre ++ post), ticket := st.ticket + 1 + 1 }) := by
  induction pre with
  | nil =>
    intro done st hf hrules _
    have hget : DIOCGETRULE st st.ticket done.length = (some r, st) := by
      rw [DIOCGETRULE_ok st _ hf, hrules, List.nil_append, getElem?_append_cons]
    have hidx : done.length < st.rules.length := by rw [hrules]; simp
    have h2 := REMOVE_ok { st with ticket := st.ticket + 1 } done.length hf hidx
    have hr2 : strtok_space (strlcpy [] r.label cfg.PF_RULE_LABEL_SIZE) = label_start cfg uid := by
      simpa [delete_hit] using hr
    simp only [List.nil_append, List.length_cons, delete_pinhole_loop, hget, hr2, if_true,
      GET_TICKET_ok st hf, h2]
    simp only [hrules, List.nil_append, eraseIdx_append_cons]
  | cons x pre ih =>
    intro done st hf hrules hpre
    have hget : DIOCGETRULE st st.ticket done.length = (some x, st) := by
      rw [DIOCGETRULE_ok st _ hf, hrules, List.cons_append, getElem?_append_cons]
    have hx : ¬ strtok_space (strlcpy [] x.label cfg.PF_RULE_LABEL_SIZE)
        = label_start cfg uid := by
      simpa [delete_hit] using hpre x (List.mem_cons_self _ _)
    have hnext := ih (done ++ [x]) st hf (by simp [hrules])
      (fun y hy => hpre y (List.mem_cons_of_mem _ hy))
    simp only [List.length_append, List.length_singleton, List.append_assoc,
      List.singleton_append] at hnext
    show delete_pinhole_loop cfg st.ticket uid (x :: (pre ++ r :: post)).length done.length st = _
    simp only [List.length_cons, delete_pinhole_loop, hget, hx, if_false]
    simpa using hnext

/-- C4, as amended. On an open device where no exchange fails, in an anchor
that holds a rule built by `add_pinhole` with id `u` in `[1,65534]` and criteria
`c`, such that no rule in front of it carries the id token `pinhole-u` and no
other pinhole rule agrees with the criteria `c`: `delete_pinhole(u)` returns 0,
removes that rule and no other, and `find_pinhole` with the criteria `c` then
returns -2. -/
theorem delete_then_find (cfg : Config) (st : State) (pre post : List pf_rule) (u : Nat)
    (a : AddArgs) (ifname : Option (List Char)) (desc : Option (List Char)) (desc_len : Nat)
    (timestamp : Option Nat) (saddr0 daddr0 : Nat)
    (hL : 30 ≤ cfg.PF_RULE_LABEL_SIZE) (hd : 0 ≤ st.dev) (hf : st.faults = [])
    (hu1 : 1 ≤ u) (hu2 : u ≤ 65534)
    (hr : st.rules = pre ++ rule_of cfg u a :: post)
    (hfirst : ∀ x ∈ pre, delete_hit cfg u x = false)
    (hother : ∀ x ∈ pre ++ post, find_hit (toInt32 a.proto) (toUInt16 a.rem_port)
      (find_pinhole_saddr cfg a.rem_host saddr0) (toUInt16 a.int_port)
      ((cfg.inet_pton a.int_client).getD daddr0) x = false) :
    (delete_pinhole cfg st u).1 = 0
    ∧ (delete_pinhole cfg st u).2.rules = pre ++ post
    ∧ (find_pinhole cfg (delete_pinhole cfg st u).2 ifname a.rem_host a.rem_port a.int_client
        a.int_port a.proto desc desc_len timestamp saddr0 daddr0).1
        = ⟨-2, desc, timestamp⟩ := by
  have hhit := rule_of_delete_hit cfg u a hL (by omega)
  have hloop := delete_pinhole_loop_spec cfg u (rule_of cfg u a) post hhit pre [] st hf
    (by simpa using hr) hfirst
  have hlen : st.rules.length = (pre ++ rule_of cfg (u : Int) a :: post).length := by rw [hr]
  have hdel : delete_pinhole cfg st u
      = (0, { st with rules := pre ++ post, ticket := st.ticket + 1 + 1 }) := by
    simp only [delete_pinhole, if_neg (not_lt.2 hd), DIOCGETRULES_ok st hf, hlen]
    simpa using hloop
  rw [hdel]
  refine ⟨rfl, rfl, ?_⟩
  rw [find_pinhole_eq cfg _ _ _ _ _ _ _ _ _ _ _ _ (by simpa using hd) (by simpa using hf)]
  simp only []
  exact find_in_miss _ _ _ _ _ _ _ _ _ hother

/-- Witness of `delete_then_find`: the scenario's pinhole, alone in the anchor. -/
theorem delete_then_find_witness :
    (find_pinhole sample_cfg (delete_pinhole sample_cfg scenario_state 1).2 none
        sample_args.rem_host sample_args.rem_port sample_args.int_client sample_args.int_port
        sample_args.proto none 0 none 0 0).1 = ⟨-2, none, none⟩ :=
  (delete_then_find sample_cfg scenario_state [] [] 1 sample_args none none 0 none 0 0
    (by decide) (by decide) (by decide) (by decide) (by decide) (by decide)
    (by intro x hx; cases hx) (by intro x hx; cases hx)).2.2

/-- C4 as stated fails: two pinholes with the same criteria, ids 1 and 2;
`delete_pinhole(1)` returns 0 and `find_pinhole` with these criteria then
returns 2, not -2. -/
theorem delete_then_find_fails :
    (add_pinhole_args sample_cfg scenario_state sample_args).1 = 2
    ∧ (delete_pinhole sample_cfg
        (add_pinhole_args sample_cfg scenario_state sample_args).2 1).1 = 0
    ∧ (find_pinhole sample_cfg
        (delete_pinhole sample_cfg
          (add_pinhole_args sample_cfg scenario_state sample_args).2 1).2 none
        sample_args.rem_host sample_args.rem_port sample_args.int_client sample_args.int_port
        sample_args.proto none 0 none 0 0).1.ret = 2 := by
  decide

/-! ## Which labels `sscanf` accepts -/

theorem skip_space_append (ws s : List Char) (h : ∀ c ∈ ws, isspace c = true) :
    skip_space (ws ++ s) = skip_space s := by
  induction ws with
  | nil => rfl
  | cons c ws ih =>
    show skip_space (c :: (ws ++ s)) = _
    rw [skip_space, if_pos (h c (List.mem_cons_self _ _))]
    exact ih (fun x hx => h x (List.mem_cons_of_mem _ hx))

theorem skip_space_split (s : List Char) :
    ∃ ws, (∀ c ∈ ws, isspace c = true) ∧ s = ws ++ skip_space s := by
  induction s with
  | nil => exact ⟨[], by simp, rfl⟩
  | cons c cs ih =>
    by_cases hc : isspace c = true
    · obtain ⟨ws, h1, h2⟩ := ih
      refine ⟨c :: ws, ?_, ?_⟩
      · intro x hx
        rcases List.mem_cons.1 hx with rfl | hx
        · exact hc
        · exact h1 x hx
      · rw [skip_space, if_pos hc, List.cons_append, ← h2]
    · exact ⟨[], by simp, by rw [skip_space, if_neg hc]; rfl⟩

theorem scan_digits_append (dg tail : List Char) (h : ∀ c ∈ dg, isdigit c = true)
    (ht : no_digit_head tail) (acc : Nat) : ∃ v, scan_digits acc (dg ++ tail) = (v, tail) := by
  induction dg generalizing acc with
  | nil => exact ⟨acc, scan_digits_stop acc tail ht⟩
  | cons c dg ih =>
    show ∃ v, scan_digits acc (c :: (dg ++ tail)) = (v, tail)
    rw [scan_digits, if_pos (h c (List.mem_cons_self _ _))]
    exact ih (fun x hx => h x (List.mem_cons_of_mem _ hx)) _

theorem scan_digits_split (s : List Char) (acc : Nat) :
    ∃ dg, (∀ c ∈ dg, isdigit c = true) ∧ s = dg ++ (scan_digits acc s).2
      ∧ no_digit_head (scan_digits acc s).2 := by
  induction s generalizing acc with
  | nil => exact ⟨[], by simp, rfl, by intro c cs h; cases h⟩
  | cons c cs ih =>
    by_cases hc : isdigit c = true
    · obtain ⟨dg, h1, h2, h3⟩ := ih (acc * 10 + (c.toNat - 48))
      refine ⟨c :: dg, ?_, ?_, ?_⟩
      · intro x hx
        rcases List.mem_cons.1 hx with rfl | hx
        · exact hc
        · exact h1 x hx
      · rw [scan_digits, if_pos hc, List.cons_append, ← h2]
      · rw [scan_digits, if_pos hc]; exact h3
    · refine ⟨[], by simp, by rw [scan_digits, if_neg hc]; rfl, ?_⟩
      rw [scan_digits, if_neg hc]
      intro x xs hx
      cases hx
      simpa using hc

theorem scan_subject_of_number_text (nm rest : List Char) (h : number_text nm) :
    ∃ neg mag r, scan_subject (nm ++ rest) = Subject.num neg mag r
      ∧ (no_digit_head rest → r = rest) := by
  obtain ⟨ws, sg, dg, rfl, hws, hsg, hne, hdg⟩ := h
  obtain ⟨d, ds, rfl⟩ := List.exists_cons_of_ne_nil hne
  have hd : isdigit d = true := hdg d (List.mem_cons_self _ _)
  have hsp : isspace d = false := isspace_of_isdigit d hd
  have h1 : d ≠ '-' := ne_of_isdigit d '-' hd (by decide)
  have h2 : d ≠ '+' := ne_of_isdigit d '+' hd (by decide)
  have hrest : ∀ acc, (no_digit_head rest →
      (scan_digits acc (d :: (ds ++ rest))).2 = rest) := by
    intro acc hr
    obtain ⟨v, hv⟩ := scan_digits_append (d :: ds) rest hdg hr acc
    rw [List.cons_append] at hv
    rw [hv]
  rcases hsg with rfl | rfl | rfl
  · have e : (ws ++ ([] ++ d :: ds)) ++ rest = ws ++ (d :: (ds ++ rest)) := by simp
    rw [e]
    unfold scan_subject
    rw [skip_space_append _ _ hws]
    simp only [skip_space, hsp, h1, h2, or_self, if_false, hd, if_true, Bool.false_eq_true]
    exact ⟨_, _, _, rfl, hrest 0⟩
  · have e : (ws ++ (['+'] ++ d :: ds)) ++ rest = ws ++ ('+' :: d :: (ds ++ rest)) := by simp
    have hp : isspace '+' = false := by decide
    rw [e]
    unfold scan_subject
    rw [skip_space_append _ _ hws]
    simp only [skip_space, hp, or_true, if_true, hd, Bool.false_eq_true, if_false]
    exact ⟨_, _, _, rfl, hrest 0⟩
  · have e : (ws ++ (['-'] ++ d :: ds)) ++ rest = ws ++ ('-' :: d :: (ds ++ rest)) := by simp
    have hp : isspace '-' = false := by decide
    rw [e]
    unfold scan_subject
    rw [skip_space_append _ _ hws]
    simp only [skip_space, hp, true_or, if_true, hd, Bool.false_eq_true, if_false]
    exact ⟨_, _, _, rfl, hrest 0⟩

theorem number_text_of_scan_subject (s : List Char) (neg : Bool) (mag : Nat) (r : List Char)
    (h : scan_subject s = Subject.num neg mag r) :
    ∃ nm, number_text nm ∧ s = nm ++ r ∧ no_digit_head r := by
  obtain ⟨ws, hws, hs⟩ := skip_space_split s
  unfold scan_subject at h
  split at h
  · cases h
  · rename_i c cs hskip
    simp only [] at h
    split at h
    · cases h
    · rename_i d ds hbody
      split at h
      · rename_i hd
        simp only [Subject.num.injEq] at h
        obtain ⟨dg, hdg, hsplit, hnd⟩ := scan_digits_split (d :: ds) 0
        rw [h.2.2] at hsplit hnd
        have hdgne : dg ≠ [] := by
          rintro rfl
          simp only [List.nil_append] at hsplit
          rw [← hsplit] at hnd
          have := hnd d ds rfl
          simp [hd] at this
        by_cases hsign : c = '-' ∨ c = '+'
        · rw [if_pos hsign] at hbody
          refine ⟨ws ++ ([c] ++ dg), ⟨ws, [c], dg, rfl, hws, ?_, hdgne, hdg⟩, ?_, hnd⟩
          · rcases hsign with rfl | rfl <;> simp
          · rw [hs, hskip, hbody, hsplit]
            simp
        · rw [if_neg hsign] at hbody
          refine ⟨ws ++ ([] ++ dg), ⟨ws, [], dg, rfl, hws, Or.inl rfl, hdgne, hdg⟩, ?_, hnd⟩
          rw [hs, hskip, hbody, hsplit]
          simp
      · cases h

theorem match_literal_some (l s r : List Char) (h : match_literal l s = some r) :
    s = l ++ r := by
  induction l generalizing s with
  | nil =>
    cases s <;> simp only [match_literal, Option.some.injEq] at h <;> simp [h]
  | cons a l ih =>
    cases s with
    | nil => simp [match_literal] at h
    | cons c cs =>
      simp only [match_literal] at h
      split at h
      · rename_i hac
        rw [hac, ih cs h]
        rfl
      · cases h

theorem ret_two_iff (label : List Char) :
    (sscanf_SKIPDESC label).ret = 2 ↔ ∃ uid ts, sscanf_SKIPDESC label = Scan.two uid ts := by
  constructor
  · intro h
    cases hs : sscanf_SKIPDESC label with
    | two uid ts => exact ⟨uid, ts, rfl⟩
    | eof | none | one uid => rw [hs] at h; simp [Scan.ret] at h
  · rintro ⟨uid, ts, h⟩
    rw [h]
    rfl

theorem shape_of_sscanf_two (label : List Char) (uid : Int) (ts : Nat)
    (h : sscanf_SKIPDESC label = Scan.two uid ts) : pinhole_shape label := by
  unfold sscanf_SKIPDESC at h
  split at h
  · split at h <;> cases h
  · rename_i s1 hm1
    split at h
    · cases h
    · cases h
    · rename_i neg mag s2 hsub1
      simp only [] at h
      split at h
      · cases h
      · rename_i s3 hm2
        split at h
        · cases h
        · cases h
        · rename_i neg2 mag2 r hsub2
          obtain ⟨nm1, hn1, e1, _⟩ := number_text_of_scan_subject _ _ _ _ hsub1
          obtain ⟨nm2, hn2, e2, _⟩ := number_text_of_scan_subject _ _ _ _ hsub2
          obtain ⟨ws, hws, e3⟩ := skip_space_split s2
          have e4 := match_literal_some _ _ _ hm1
          have e5 := match_literal_some _ _ _ hm2
          refine ⟨nm1, ws, nm2, r, ?_, hn1, hws, hn2⟩
          rw [e4, e1, e3, e5, e2]

theorem sscanf_two_of_shape (label : List Char) (h : pinhole_shape label) :
    ∃ uid ts, sscanf_SKIPDESC label = Scan.two uid ts := by
  obtain ⟨nm1, ws, nm2, rest, rfl, hn1, hws, hn2⟩ := h
  have hnd : no_digit_head (ws ++ ("ts-".toList ++ (nm2 ++ rest))) := by
    intro c cs hc
    cases ws with
    | nil =>
      simp only [List.nil_append] at hc
      cases hc
      decide
    | cons w ws =>
      simp only [List.cons_append, List.cons.injEq] at hc
      have hw := hws w (List.mem_cons_self _ _)
      rw [hc.1] at hw
      cases hd : isdigit c with
      | false => rfl
      | true => rw [isspace_of_isdigit c hd] at hw; cases hw
  obtain ⟨neg, mag, r, hs1, hr⟩ := scan_subject_of_number_text nm1 _ hn1
  rw [hr hnd] at hs1
  obtain ⟨neg2, mag2, r2, hs2, _⟩ := scan_subject_of_number_text nm2 rest hn2
  have hskip : skip_space (ws ++ ("ts-".toList ++ (nm2 ++ rest)))
      = "ts-".toList ++ (nm2 ++ rest) := by
    rw [skip_space_append _ _ hws]
    rfl
  have hm : match_literal "pinhole-".toList
      ("pinhole-".toList ++ (nm1 ++ (ws ++ ("ts-".toList ++ (nm2 ++ rest)))))
      = some (nm1 ++ (ws ++ ("ts-".toList ++ (nm2 ++ rest)))) := match_literal_append _ _
  refine ⟨conv_d neg mag, conv_u neg2 mag2, ?_⟩
  unfold sscanf_SKIPDESC
  rw [hm]
  simp only [hs1, hskip, match_literal_append, hs2]

/-- C9, as amended. `find_pinhole` and `clean_pinhole_list` take a rule for a
pinhole exactly when `sscanf` returns 2 on its label, that is when the label is
`pinhole-`, a number (optional white space, optional sign, digits), optional
white space, `ts-` and a second number; neither the white space after the id
nor the colon after the timestamp is required.  A rule whose label is not of
this shape never stops the scan of `find_pinhole`, is never removed by
`clean_pinhole_list`, and does not make it return an error. -/
theorem pinhole_label_shape :
    (∀ label, (sscanf_SKIPDESC label).ret = 2 ↔ pinhole_shape label)
    ∧ (∀ (st : State) (current_time : Int) (nt : Option Nat) (r : pf_rule),
        0 ≤ st.dev → st.faults = [] → r ∈ st.rules → ¬ pinhole_shape r.label →
        r ∈ (clean_pinhole_list st current_time nt).2.rules
        ∧ 0 ≤ (clean_pinhole_list st current_time nt).1.1)
    ∧ (∀ (cfg : Config) (st : State) (pre post : List pf_rule) (r : pf_rule)
        (ifname rem_host : Option (List Char)) (rem_port : Nat) (int_client : List Char)
        (int_port : Nat) (proto : Int) (desc : Option (List Char)) (desc_len : Nat)
        (timestamp : Option Nat) (saddr0 daddr0 : Nat),
        0 ≤ st.dev → st.faults = [] → st.rules = pre ++ r :: post → ¬ pinhole_shape r.label →
        (find_pinhole cfg st ifname rem_host rem_port int_client int_port proto desc desc_len
          timestamp saddr0 daddr0).1
        = (find_pinhole cfg { st with rules := pre ++ post } ifname rem_host rem_port int_client
            int_port proto desc desc_len timestamp saddr0 daddr0).1) := by
  have hiff : ∀ label, (sscanf_SKIPDESC label).ret = 2 ↔ pinhole_shape label := by
    intro label
    rw [ret_two_iff]
    constructor
    · rintro ⟨uid, ts, h⟩
      exact shape_of_sscanf_two label uid ts h
    · exact sscanf_two_of_shape label
  refine ⟨hiff, ?_, ?_⟩
  · intro st current_time nt r hd hf hr hshape
    obtain ⟨t, ht⟩ := clean_pinhole_list_eq st current_time nt hd hf
    have hexp : expired (toUInt32 current_time) r = false := by
      cases hs : sscanf_SKIPDESC r.label with
      | two uid ts => exact absurd (shape_of_sscanf_two _ uid ts hs) hshape
      | eof | none | one uid => simp [expired, hs]
    rw [ht]
    constructor
    · simp only [List.mem_filter]
      exact ⟨hr, by simp [hexp]⟩
    · simp only [foldr_visit_n]
      have h0 : CleanAcc.init.n = 0 := rfl
      omega
  · intro cfg st pre post r ifname rem_host rem_port int_client int_port proto desc desc_len
      timestamp saddr0 daddr0 hd hf hr hshape
    have hmiss : find_hit (toInt32 proto) (toUInt16 rem_port)
        (find_pinhole_saddr cfg rem_host saddr0) (toUInt16 int_port)
        ((cfg.inet_pton int_client).getD daddr0) r = false := by
      have : ¬ (sscanf_SKIPDESC r.label).ret = 2 := fun h => hshape ((hiff _).1 h)
      simp [find_hit, this]
    rw [find_pinhole_eq cfg st _ _ _ _ _ _ _ _ _ _ _ hd hf,
      find_pinhole_eq cfg { st with rules := pre ++ post } _ _ _ _ _ _ _ _ _ _ _ hd hf, hr]
    exact find_in_skip _ _ _ _ _ _ _ _ _ hmiss pre post

/-- Witness of `pinhole_label_shape`: the operator's rule `my rule` stays in
the anchor through a sweep at time 10. -/
theorem pinhole_label_shape_witness :
    ({ label := "my rule".toList } : pf_rule)
        ∈ (clean_pinhole_list odd_labels_state 10 none).2.rules
    ∧ 0 ≤ (clean_pinhole_list odd_labels_state 10 none).1.1 :=
  pinhole_label_shape.2.1 odd_labels_state 10 none { label := "my rule".toList }
    (by decide) (by decide) (by decide)
    (fun h => absurd ((pinhole_label_shape.1 _).2 h) (by decide))

/-- C9 as stated fails: the label `pinhole-1 ts-5` has no colon and the label
`pinhole-2ts-5` no blank after the id, yet `sscanf` returns 2 on both, and
`clean_pinhole_list` at time 10 removes both rules (it returns 2 and leaves the
operator's rule alone). -/
theorem pinhole_label_without_colon :
    (sscanf_SKIPDESC "pinhole-1 ts-5".toList).ret = 2
    ∧ (sscanf_SKIPDESC "pinhole-2ts-5".toList).ret = 2
    ∧ (clean_pinhole_list odd_labels_state 10 none).1.1 = 2
    ∧ (clean_pinhole_list odd_labels_state 10 none).2.rules = [{ label := "my rule".toList }] := by
  decide

/-! ## Id uniqueness until the allocator wraps -/

theorem pinhole_ids_sublist (a b : List pf_rule) (h : a.Sublist b) :
    (pinhole_ids a).Sublist (pinhole_ids b) :=
  List.Sublist.filterMap _ h

theorem pinhole_ids_append_rule (rules : List pf_rule) (r : pf_rule) (uid : Int) (ts : Nat)
    (h : sscanf_SKIPDESC r.label = Scan.two uid ts) :
    pinhole_ids (rules ++ [r]) = pinhole_ids rules ++ [uid] := by
  simp [pinhole_ids, List.filterMap_append, h]

theorem mem_pinhole_ids (rules : List pf_rule) (r : pf_rule) (uid : Int) (ts : Nat)
    (hr : r ∈ rules) (h : sscanf_SKIPDESC r.label = Scan.two uid ts) :
    uid ∈ pinhole_ids rules := by
  simp only [pinhole_ids, List.mem_filterMap]
  exact ⟨r, hr, by simp [h]⟩

theorem DIOCGETRULE_mem (st st1 : State) (t nr : Nat) (r : pf_rule)
    (h : DIOCGETRULE st t nr = (some r, st1)) : r ∈ st.rules := by
  unfold DIOCGETRULE at h
  split at h
  · cases h
  · split at h
    · simp only [Prod.mk.injEq] at h
      exact List.getElem?_mem h.1
    · cases h

theorem keep_max_uid (acc : CleanAcc) (uid : Int) (ts : Nat) (m : Int)
    (h1 : acc.max_uid ≤ m) (h2 : uid ≤ m) : (acc.keep uid ts).max_uid ≤ m := by
  simp only [CleanAcc.keep]
  split <;> assumption

theorem clean_pinhole_loop_max (now todo ticket : Nat) (acc : CleanAcc) (st : State) (m : Int)
    (h : ∀ u ∈ pinhole_ids st.rules, u ≤ m) (hacc : acc.max_uid ≤ m) :
    ∀ acc1, (clean_pinhole_loop now todo ticket acc st).1 = some acc1 → acc1.max_uid ≤ m := by
  induction todo generalizing ticket acc st with
  | zero =>
    intro acc1 h1
    simp only [clean_pinhole_loop, Option.some.injEq] at h1
    rw [← h1]; exact hacc
  | succ i ih =>
    have hbound : ∀ st1 : State, State.after st st1 → ∀ u ∈ pinhole_ids st1.rules, u ≤ m :=
      fun st1 ha u hu => h u ((pinhole_ids_sublist _ _ ha.2.2.1).subset hu)
    have h1 := DIOCGETRULE_after st ticket i
    intro acc1
    rw [clean_pinhole_loop]
    split
    · intro hc; cases hc
    · rename_i r st1 e
      rw [e] at h1
      have hr := DIOCGETRULE_mem _ _ _ _ _ e
      split
      · rename_i uid ts hs
        have huid : uid ≤ m := h uid (mem_pinhole_ids _ _ _ _ hr hs)
        split
        · have h2 := GET_TICKET_after st1
          split
          · intro hc; cases hc
          · rename_i t st2 e2
            rw [e2] at h2
            have h3 := REMOVE_after st2 t i
            split
            · intro hc; cases hc
            · rename_i st3 e3; rw [e3] at h3
              have h4 := DIOCGETRULES_after st3
              split
              · intro hc; cases hc
              · rename_i t1 n1 st4 e4; rw [e4] at h4
                exact ih t1 { acc with n := acc.n + 1 } st4
                  (hbound _ (State.after_trans h1 (State.after_trans h2
                    (State.after_trans h3 h4)))) hacc acc1
        · exact ih ticket (acc.keep uid ts) st1 (hbound _ h1)
            (keep_max_uid _ _ _ _ hacc huid) acc1
      · exact ih ticket acc st1 (hbound _ h1) hacc acc1

theorem reconcile_uid_range (next_uid min_uid max_uid : Int) (h1 : 1 ≤ next_uid)
    (h2 : next_uid ≤ 65534) (hmax : max_uid ≤ 65534) :
    1 ≤ reconcile_uid next_uid min_uid max_uid ∧ reconcile_uid next_uid min_uid max_uid ≤ 65534
    ∧ (max_uid < next_uid → reconcile_uid next_uid min_uid max_uid = next_uid) := by
  simp only [reconcile_uid]
  have e : ∀ x : Int, 0 < x → x ≤ 65534 → toInt32 (x + 1) = x + 1 := by
    intro x _ _
    simp only [toInt32]
    omega
  split
  · rename_i hpos
    rw [e max_uid hpos hmax]
    split <;> split <;> omega
  · omega

/-- What `clean_pinhole_list` does to the state, failures included: no rule is
added, and `next_uid` stays or is reconciled against a `max_uid` that is at most
the largest pinhole id of the anchor. -/
theorem clean_pinhole_list_after (st : State) (current_time : Int) (nt : Option Nat) (m : Int)
    (h : ∀ u ∈ pinhole_ids st.rules, u ≤ m) (hm : -1 ≤ m) :
    (clean_pinhole_list st current_time nt).2.dev = st.dev
    ∧ (clean_pinhole_list st current_time nt).2.rules.Sublist st.rules
    ∧ ((clean_pinhole_list st current_time nt).2.next_uid = st.next_uid
        ∨ ∃ mn mx, mx ≤ m ∧ (clean_pinhole_list st current_time nt).2.next_uid
            = reconcile_uid st.next_uid mn mx) := by
  unfold clean_pinhole_list
  split
  · exact ⟨rfl, List.Sublist.refl _, Or.inl rfl⟩
  · have h1 := DIOCGETRULES_after st
    split
    · rename_i st1 e; rw [e] at h1
      exact ⟨h1.1, h1.2.2.1, Or.inl h1.2.1⟩
    · rename_i t n st1 e; rw [e] at h1
      have h2 := clean_pinhole_loop_after (toUInt32 current_time) n t CleanAcc.init st1
      have hb : ∀ u ∈ pinhole_ids st1.rules, u ≤ m :=
        fun u hu => h u ((pinhole_ids_sublist _ _ h1.2.2.1).subset hu)
      have h3 := clean_pinhole_loop_max (toUInt32 current_time) n t CleanAcc.init st1 m hb hm
      have h12 := State.after_trans h1 h2
      split
      · rename_i st2 e2; rw [e2] at h12
        exact ⟨h12.1, h12.2.2.1, Or.inl h12.2.1⟩
      · rename_i acc st2 e2
        rw [e2] at h12 h3
        have hnu : st2.next_uid = st.next_uid := h12.2.1
        refine ⟨h12.1, h12.2.2.1, Or.inr ⟨acc.min_uid, acc.max_uid, h3 acc rfl, ?_⟩⟩
        simp only [hnu]

theorem ioctl_fault_rules (st : State) : (ioctl_fault st).2.rules = st.rules := by
  unfold ioctl_fault
  split <;> rfl

theorem GET_TICKET_rules (st : State) : (DIOCCHANGERULE_GET_TICKET st).2.rules = st.rules := by
  unfold DIOCCHANGERULE_GET_TICKET
  split
  · exact ioctl_fault_rules st
  · exact ioctl_fault_rules st

theorem ADD_TAIL_cases (st : State) (t : Nat) (rule : pf_rule) :
    ((DIOCCHANGERULE_ADD_TAIL st t rule).1 = false
      ∧ State.after st (DIOCCHANGERULE_ADD_TAIL st t rule).2)
    ∨ ((DIOCCHANGERULE_ADD_TAIL st t rule).1 = true
      ∧ (DIOCCHANGERULE_ADD_TAIL st t rule).2.rules = st.rules ++ [rule]
      ∧ (DIOCCHANGERULE_ADD_TAIL st t rule).2.next_uid = st.next_uid) := by
  have hf := ioctl_fault_after st
  unfold DIOCCHANGERULE_ADD_TAIL
  split
  · exact Or.inl ⟨rfl, hf⟩
  · split
    · exact Or.inr ⟨rfl, rfl, hf.2.1⟩
    · exact Or.inl ⟨rfl, hf⟩

theorem add_pinhole_commit_cases (s : State) (rule : pf_rule) :
    ((add_pinhole_commit s rule).1 = -1 ∧ State.after s (add_pinhole_commit s rule).2)
    ∨ ((add_pinhole_commit s rule).1 = s.next_uid
      ∧ (add_pinhole_commit s rule).2.rules = s.rules ++ [rule]
      ∧ (add_pinhole_commit s rule).2.next_uid = advance_uid s.next_uid) := by
  have h1 := GET_TICKET_after s
  have hr := GET_TICKET_rules s
  unfold add_pinhole_commit
  split
  · rename_i s1 e; rw [e] at h1; exact Or.inl ⟨rfl, h1⟩
  · rename_i t s1 e
    rw [e] at h1 hr
    have hnu : s1.next_uid = s.next_uid := h1.2.1
    have hrules : s1.rules = s.rules := hr
    have hc := ADD_TAIL_cases s1 t rule
    split
    · rename_i s2 e2
      rw [e2] at hc
      rcases hc with ⟨_, h2⟩ | ⟨h2, _⟩
      · exact Or.inl ⟨rfl, State.after_trans h1 h2⟩
      · cases h2
    · rename_i s2 e2
      rw [e2] at hc
      rcases hc with ⟨h2, _⟩ | ⟨_, h2, h3⟩
      · cases h2
      · have h2a : s2.rules = s1.rules ++ [rule] := h2
        have h3a : s2.next_uid = s1.next_uid := h3
        refine Or.inr ⟨rfl, ?_, ?_⟩
        · show s2.rules = s.rules ++ [rule]
          rw [h2a, hrules]
        · show advance_uid s2.next_uid = advance_uid s.next_uid
          rw [h3a, hnu]

/-- The outcomes of `add_pinhole`, failures included: either -1 and no new
rule, or the current `next_uid`, the new rule at the tail, and `next_uid`
advanced. -/
theorem add_pinhole_cases (cfg : Config) (st : State) (a : AddArgs) :
    ((add_pinhole_args cfg st a).1 = -1 ∧ State.after st (add_pinhole_args cfg st a).2)
    ∨ ((add_pinhole_args cfg st a).1 = st.next_uid
        ∧ (add_pinhole_args cfg st a).2.rules = st.rules ++ [rule_of cfg st.next_uid a]
        ∧ (add_pinhole_args cfg st a).2.next_uid = advance_uid st.next_uid) := by
  unfold add_pinhole_args add_pinhole
  split
  · exact Or.inl ⟨rfl, State.after_refl st⟩
  · simp only []
    split
    · exact add_pinhole_commit_cases st _
    · have h0 := DIOCBEGINADDRS_after st
      have hr0 : (DIOCBEGINADDRS st).2.rules = st.rules := ioctl_fault_rules st
      split
      · rename_i s1 e; rw [e] at h0; exact Or.inl ⟨rfl, h0⟩
      · rename_i s1 e
        rw [e] at h0 hr0
        have hs1 : s1.rules = st.rules := hr0
        have hnu : s1.next_uid = st.next_uid := h0.2.1
        rcases add_pinhole_commit_cases s1 (add_pinhole_rule cfg st.next_uid a.ifname a.rem_host
          a.rem_port a.int_client a.int_port a.proto a.desc a.timestamp)
          with ⟨h1, h2⟩ | ⟨h1, h2, h3⟩
        · exact Or.inl ⟨h1, State.after_trans h0 h2⟩
        · refine Or.inr ⟨h1.trans hnu, ?_, ?_⟩
          · rw [h2, hs1]; rfl
          · rw [h3, hnu]

theorem fresh_of_after {m : Nat} {st st1 : State} (h : Fresh m st)
    (hr : st1.rules.Sublist st.rules) (hn : st1.next_uid = st.next_uid) : Fresh m st1 := by
  obtain ⟨h1, h2, h3, h4, h5⟩ := h
  have hs := pinhole_ids_sublist _ _ hr
  exact ⟨hn ▸ h1, hn ▸ h2, fun hm => hn ▸ h3 hm, h4.sublist hs, fun u hu => h5 u (hs.subset hu)⟩

theorem fresh_step (cfg : Config) (hL : 30 ≤ cfg.PF_RULE_LABEL_SIZE) (m : Nat) (st : State)
    (op : Op) (h : Fresh m st)
    (hm : m + (if op.isAdd = true ∧ (step cfg st op).1 ≠ -1 then 1 else 0) ≤ 65534) :
    Fresh (m + (if op.isAdd = true ∧ (step cfg st op).1 ≠ -1 then 1 else 0))
      (step cfg st op).2 := by
  cases op with
  | add a =>
    have hstep : step cfg st (Op.add a) = add_pinhole_args cfg st a := rfl
    rcases add_pinhole_cases cfg st a with ⟨h1, h2⟩ | ⟨h1, h2, h3⟩
    · rw [hstep, h1]
      simp only [ne_eq, not_true_eq_false, and_false, if_false, Nat.add_zero]
      exact fresh_of_after h h2.2.2.1 h2.2.1
    · obtain ⟨g1, g2, g3, g4, g5⟩ := h
      have hne : (add_pinhole_args cfg st a).1 ≠ -1 := by rw [h1]; omega
      rw [hstep] at hm ⊢
      simp only [Op.isAdd, hne, ne_eq, not_false_eq_true, and_self, if_true] at hm ⊢
      have hnu : st.next_uid = ((m + 1 : Nat) : Int) := by
        rw [g3 (by omega)]; push_cast; rfl
      have hscan := rule_of_sscanf cfg (m + 1) a hL (by omega)
      rw [← hnu] at hscan
      have hids := pinhole_ids_append_rule st.rules _ _ _ hscan
      have hadv := advance_uid_eq st.next_uid g1 g2
      refine ⟨?_, ?_, ?_, ?_, ?_⟩
      · rw [h3, hadv]; omega
      · rw [h3, hadv]; omega
      · intro hm2; rw [h3, hadv, hnu]; push_cast; omega
      · rw [h2, hids, List.pairwise_append]
        refine ⟨g4, List.pairwise_singleton _ _, ?_⟩
        intro x hx y hy
        rw [List.mem_singleton] at hy
        have := (g5 x hx).2
        rw [hy, hnu]; push_cast; omega
      · intro u hu
        rw [h2, hids, List.mem_append, List.mem_singleton] at hu
        rcases hu with hu | hu
        · have := g5 u hu
          push_cast; omega
        · rw [hu, hnu]; push_cast; omega
  | delete uid =>
    have ha := delete_pinhole_after cfg st uid
    simp only [Op.isAdd, Bool.false_eq_true, false_and, if_false, Nat.add_zero]
    exact fresh_of_after h ha.2.2.1 ha.2.1
  | update uid ts =>
    simp only [Op.isAdd, Bool.false_eq_true, false_and, if_false, Nat.add_zero]
    exact h
  | clean now nt =>
    simp only [Op.isAdd, Bool.false_eq_true, false_and, if_false, Nat.add_zero]
    obtain ⟨g1, g2, g3, g4, g5⟩ := h
    obtain ⟨_, hsub, hnu⟩ := clean_pinhole_list_after st now nt (m : Int)
      (fun u hu => (g5 u hu).2) (by omega)
    have hs := pinhole_ids_sublist _ _ hsub
    have hm' : m ≤ 65534 := by simpa [Op.isAdd] using hm
    show Fresh m (clean_pinhole_list st now nt).2
    rcases hnu with hnu | ⟨mn, mx, hmx, hnu⟩
    · exact ⟨hnu ▸ g1, hnu ▸ g2, fun hm => hnu ▸ g3 hm, g4.sublist hs,
        fun u hu => g5 u (hs.subset hu)⟩
    · obtain ⟨r1, r2, r3⟩ := reconcile_uid_range st.next_uid mn mx g1 g2 (by omega)
      refine ⟨hnu ▸ r1, hnu ▸ r2, ?_, g4.sublist hs, fun u hu => g5 u (hs.subset hu)⟩
      intro hm2
      rw [hnu, r3 (by rw [g3 hm2]; omega)]
      exact g3 hm2

theorem fresh_exec (cfg : Config) (hL : 30 ≤ cfg.PF_RULE_LABEL_SIZE) (ops : List Op) :
    ∀ (m : Nat) (st : State), Fresh m st → m + successful_adds cfg st ops ≤ 65534 →
      Fresh (m + successful_adds cfg st ops) (exec cfg st ops) := by
  induction ops with
  | nil => intro m st h _; exact h
  | cons op ops ih =>
    intro m st h hm
    simp only [successful_adds] at hm ⊢
    have h1 := fresh_step cfg hL m st op h (by omega)
    have h2 := ih _ _ h1 (by omega)
    rw [Nat.add_assoc] at h2
    exact h2

theorem fresh_init (dev : Int) (faults : List Bool) : Fresh 0 (State.init dev faults) := by
  refine ⟨Int.le_refl _, (by show (1 : Int) ≤ 65534; decide), fun _ => rfl, ?_, ?_⟩
  · simp [State.init, pinhole_ids]
  · simp [State.init, pinhole_ids]

/-- C6, as amended. From the start-up state (empty anchor, `next_uid = 1`),
through any sequence of `add_pinhole`, `delete_pinhole`, `update_pinhole` and
`clean_pinhole_list` calls, with any failures of the store, in which at most
65534 `add_pinhole` calls succeeded: no two pinhole rules in the anchor carry
the same id; and if at most 65533 succeeded, the id returned by a further
successful `add_pinhole` differs from the id of every pinhole rule in the
anchor. -/
theorem pinhole_ids_unique (cfg : Config) (hL : 30 ≤ cfg.PF_RULE_LABEL_SIZE) (dev : Int)
    (faults : List Bool) (ops : List Op)
    (h : successful_adds cfg (State.init dev faults) ops ≤ 65534) :
    (pinhole_ids (exec cfg (State.init dev faults) ops).rules).Nodup
    ∧ (successful_adds cfg (State.init dev faults) ops ≤ 65533 →
        ∀ a : AddArgs,
          (add_pinhole_args cfg (exec cfg (State.init dev faults) ops) a).1 ≠ -1 →
          (add_pinhole_args cfg (exec cfg (State.init dev faults) ops) a).1
            ∉ pinhole_ids (exec cfg (State.init dev faults) ops).rules) := by
  have hf := fresh_exec cfg hL ops 0 (State.init dev faults) (fresh_init dev faults)
    (by omega)
  rw [Nat.zero_add] at hf
  obtain ⟨g1, g2, g3, g4, g5⟩ := hf
  refine ⟨?_, ?_⟩
  · exact g4.imp (fun hlt => ne_of_lt hlt)
  · intro hm a hne hmem
    rcases add_pinhole_cases cfg (exec cfg (State.init dev faults) ops) a with
      ⟨h1, _⟩ | ⟨h1, _, _⟩
    · exact hne h1
    · rw [h1, g3 hm] at hmem
      have := (g5 _ hmem).2
      omega

/-- Witness of `pinhole_ids_unique`: after two calls of the scenario's
`add_pinhole` the ids in the anchor are distinct. -/
theorem pinhole_ids_unique_witness :
    (pinhole_ids (exec sample_cfg (State.init 3 [])
      [Op.add sample_args, Op.add sample_args]).rules).Nodup :=
  (pinhole_ids_unique sample_cfg (by decide) 3 [] [Op.add sample_args, Op.add sample_args]
    (by decide)).1

theorem exec_replicate_add (cfg : Config) (a : AddArgs) (k : Nat) :
    ∀ st : State, 0 ≤ st.dev → st.faults = [] → 1 ≤ st.next_uid → st.next_uid ≤ 65534 →
      st.next_uid + (k : Int) ≤ 65535 →
      (exec cfg st (List.replicate k (Op.add a))).dev = st.dev
      ∧ (exec cfg st (List.replicate k (Op.add a))).faults = []
      ∧ (exec cfg st (List.replicate k (Op.add a))).next_uid
          = (if st.next_uid + (k : Int) = 65535 then 1 else st.next_uid + (k : Int))
      ∧ ∀ r ∈ st.rules, r ∈ (exec cfg st (List.replicate k (Op.add a))).rules := by
  induction k with
  | zero =>
    intro st _ hf _ h3 h4
    refine ⟨rfl, hf, ?_, fun r hr => hr⟩
    simp only [List.replicate, exec, Nat.cast_zero, Int.add_zero] at h4 ⊢
    rw [if_neg (by omega)]
  | succ k ih =>
    intro st hd hf h1 h3 h4
    have hstep : step cfg st (Op.add a) = add_pinhole_args cfg st a := rfl
    have hok := add_pinhole_ok cfg st a hd hf
    have hadv := advance_uid_eq st.next_uid h1 h3
    simp only [List.replicate, exec, hstep, hok]
    by_cases hlast : st.next_uid = 65534
    · have hk : k = 0 := by omega
      subst hk
      simp only [List.replicate, exec]
      refine ⟨trivial, hf, ?_, fun r hr => List.mem_append_left _ hr⟩
      simp only [hadv, hlast]
      rfl
    · obtain ⟨i1, i2, i3, i4⟩ := ih
        { st with rules := st.rules ++ [rule_of cfg st.next_uid a], ticket := st.ticket + 2
                  next_uid := advance_uid st.next_uid }
        hd hf (by simp only [hadv]; omega) (by simp only [hadv]; omega)
        (by simp only [hadv]; omega)
      refine ⟨i1, i2, ?_, fun r hr => i4 r (List.mem_append_left _ hr)⟩
      rw [i3]
      simp only [hadv]
      have e : st.next_uid % 65534 + 1 + (k : Int) = st.next_uid + ((k + 1 : Nat) : Int) := by
        push_cast; omega
      rw [e]

theorem wrap_exec_eq :
    exec sample_cfg (State.init 3 []) (List.replicate 65534 (Op.add sample_args))
      = exec sample_cfg scenario_state (List.replicate 65533 (Op.add sample_args)) := by
  have hs : (step sample_cfg (State.init 3 []) (Op.add sample_args)).2 = scenario_state := rfl
  rw [show (65534 : Nat) = 65533 + 1 from rfl, List.replicate_succ, exec, hs]

theorem wrap_state :
    0 ≤ (exec sample_cfg scenario_state (List.replicate 65533 (Op.add sample_args))).dev
    ∧ (exec sample_cfg scenario_state (List.replicate 65533 (Op.add sample_args))).faults = []
    ∧ (exec sample_cfg scenario_state (List.replicate 65533 (Op.add sample_args))).next_uid = 1
    ∧ (1 : Int) ∈ pinhole_ids
        (exec sample_cfg scenario_state (List.replicate 65533 (Op.add sample_args))).rules := by
  obtain ⟨h1, h2, h3, h4⟩ := exec_replicate_add sample_cfg sample_args 65533 scenario_state
    (by decide) (by decide) (by decide) (by decide) (by decide)
  have h2u : scenario_state.next_uid = 2 := by decide
  refine ⟨?_, h2, ?_, ?_⟩
  · rw [h1]; decide
  · rw [h3, h2u]; norm_num
  · exact mem_pinhole_ids _ (rule_of sample_cfg 1 sample_args) 1 1000
      (h4 _ (by decide)) (by decide)

theorem add_returns_next_uid (cfg : Config) (st : State) (a : AddArgs) (hd : 0 ≤ st.dev)
    (hf : st.faults = []) : (add_pinhole_args cfg st a).1 = st.next_uid := by
  rw [add_pinhole_ok cfg st a hd hf]

/-- C6 as stated fails: after 65534 successful `add_pinhole` calls from the
start-up state the allocator has wrapped; the pinhole with id 1 is still in the
anchor and the next `add_pinhole` succeeds and returns 1 again. -/
theorem id_reissued_after_wrap :
    (add_pinhole_args sample_cfg
        (exec sample_cfg (State.init 3 []) (List.replicate 65534 (Op.add sample_args)))
        sample_args).1 = 1
    ∧ (1 : Int) ∈ pinhole_ids
        (exec sample_cfg (State.init 3 []) (List.replicate 65534 (Op.add sample_args))).rules := by
  rw [wrap_exec_eq]
  exact ⟨(add_returns_next_uid sample_cfg _ sample_args wrap_state.1 wrap_state.2.1).trans
    wrap_state.2.2.1, wrap_state.2.2.2⟩

/-! ## The label round trip through `find_pinhole` and `get_pinhole_info` -/

theorem find_pinhole_desc_canon (n ts : Nat) (d behind buf : List Char) (desc_len : Nat) :
    find_pinhole_desc (canon n ts d) behind (some buf) desc_len
      = some (strlcpy buf d desc_len) := by
  have h : strchr (canon n ts d) ':' = some (':' :: ' ' :: d) := strchr_canon n ts d
  simp only [find_pinhole_desc, h, List.drop_succ_cons, List.drop_zero]

theorem rule_of_label_kept (cfg : Config) (n : Nat) (a : AddArgs)
    (hL : 30 ≤ cfg.PF_RULE_LABEL_SIZE) (hn : n < 100000) (hts : a.timestamp < 4294967296) :
    (rule_of cfg n a).label
        = canon n a.timestamp
            (a.desc.take (cfg.PF_RULE_LABEL_SIZE - 1 - (label_front n a.timestamp).length))
    ∧ strlcpy [] (rule_of cfg n a).label cfg.PF_RULE_LABEL_SIZE
        = canon n a.timestamp
            (a.desc.take (cfg.PF_RULE_LABEL_SIZE - 1 - (label_front n a.timestamp).length)) := by
  have hlab := snprintf_label cfg.PF_RULE_LABEL_SIZE n a.timestamp 5 a.desc
    (by decide) (by norm_num; omega) hts (by omega)
  have hrule : (rule_of cfg n a).label
      = snprintf cfg.PF_RULE_LABEL_SIZE (PINEHOLE_LABEL_FORMAT n a.timestamp a.desc) := by
    simp only [rule_of, add_pinhole_rule, toUInt32_of_lt a.timestamp hts]
  refine ⟨hrule.trans hlab, ?_⟩
  rw [hrule, strlcpy_snprintf _ _ (by omega), hlab]

theorem get_pinhole_info_loop_spec (cfg : Config) (uid rem_hostlen int_clientlen desclen : Nat)
    (b : InfoBuffers) (r : pf_rule) (post : List pf_rule)
    (hr : info_hit cfg uid r = true) (pre : List pf_rule) :
    ∀ (done : List pf_rule) (st : State), st.faults = [] →
      st.rules = done ++ (pre ++ r :: post) →
      (∀ x ∈ pre, info_hit cfg uid x = false) →
      get_pinhole_info_loop cfg st.ticket uid rem_hostlen int_clientlen desclen b
          (pre ++ r :: post).length done.length st
        = (get_pinhole_info_fill cfg r
            (strsep_space (strlcpy [] r.label cfg.PF_RULE_LABEL_SIZE)).2
            rem_hostlen int_clientlen desclen b, st) := by
  induction pre with
  | nil =>
    intro done st hf hrules _
    have hget : DIOCGETRULE st st.ticket done.length = (some r, st) := by
      rw [DIOCGETRULE_ok st _ hf, hrules, List.nil_append, getElem?_append_cons]
    have hr2 : (strsep_space (strlcpy [] r.label cfg.PF_RULE_LABEL_SIZE)).1
        = label_start cfg uid := by
      simpa [info_hit] using hr
    simp only [List.nil_append, List.length_cons, get_pinhole_info_loop, hget, hr2, if_true]
  | cons x pre ih =>
    intro done st hf hrules hpre
    have hget : DIOCGETRULE st st.ticket done.length = (some x, st) := by
      rw [DIOCGETRULE_ok st _ hf, hrules, List.cons_append, getElem?_append_cons]
    have hx : ¬ (strsep_space (strlcpy [] x.label cfg.PF_RULE_LABEL_SIZE)).1
        = label_start cfg uid := by
      simpa [info_hit] using hpre x (List.mem_cons_self _ _)
    have hnext := ih (done ++ [x]) st hf (by simp [hrules])
      (fun y hy => hpre y (List.mem_cons_of_mem _ hy))
    show get_pinhole_info_loop cfg st.ticket uid rem_hostlen int_clientlen desclen b
      (x :: (pre ++ r :: post)).length done.length st = _
    simp only [List.length_cons, get_pinhole_info_loop, hget, hx, if_false]
    simpa using hnext

theorem get_pinhole_info_fill_ok (cfg : Config) (r : pf_rule) (p : Option (List Char))
    (rem_hostlen int_clientlen desclen : Nat) (b : InfoBuffers)
    (d : Option (List Char)) (t : Option Nat)
    (hrem : b.rem_host = none ∨ (cfg.inet_ntop r.src.addr rem_hostlen).isSome = true)
    (hint : b.int_client = none ∨ (cfg.inet_ntop r.dst.addr int_clientlen).isSome = true)
    (hlabel : get_pinhole_info_label p b.desc desclen b.timestamp = some (d, t)) :
    ∃ b1, get_pinhole_info_fill cfg r p rem_hostlen int_clientlen desclen b = some (0, b1)
      ∧ b1.desc = d ∧ b1.timestamp = t
      ∧ b1.rem_port = b.rem_port.map (fun _ => ntohs r.src.port0)
      ∧ b1.int_port = b.int_port.map (fun _ => ntohs r.dst.port0)
      ∧ b1.proto = b.proto.map (fun _ => (r.proto : Int)) := by
  unfold get_pinhole_info_fill
  split
  · rename_i h1 h2
    rcases hrem with h | h
    · rw [h] at h1; cases h1
    · rw [h2] at h; cases h
  · simp only []
    split
    · rename_i h1 h2
      rcases hint with h | h
      · rw [h] at h1; cases h1
      · rw [h2] at h; cases h
    · simp only [hlabel]
      exact ⟨_, rfl, rfl, rfl, rfl, rfl, rfl⟩

theorem get_pinhole_info_label_canon (ts : Nat) (d : List Char) (desc : Option (List Char))
    (desclen : Nat) (timestamp : Option Nat) (hts : ts < 4294967296) :
    get_pinhole_info_label (some ("ts-".toList ++ (fmt_u ts ++ (": ".toList ++ d)))) desc desclen
        timestamp
      = some (desc.map (fun buf => strlcpy buf d desclen), timestamp.map (fun _ => ts)) := by
  cases desc <;> cases timestamp <;>
    simp only [get_pinhole_info_label, sscanf_ts_canon ts _ d hts, strsep_space_canon_tail,
      Option.bind, Option.map]

/-- C1. Label round trip.  Let `add_pinhole` run on an open device without
failures, with `next_uid` (the id) in `[1,65534]`, a timestamp below `2^32-1`,
any description, and a label array of at least 30 bytes.  The label it writes
is the intact prefix `pinhole-<id> ts-<timestamp>: ` followed by the part of the
description that fits.  A `find_pinhole` call whose scan stops at the new rule
returns exactly that id, writes that timestamp and copies out that part of the
description; `get_pinhole_info` for that id returns 0 and yields the same
timestamp and description. -/
theorem label_round_trip (cfg : Config) (hL : 30 ≤ cfg.PF_RULE_LABEL_SIZE) (st : State)
    (a : AddArgs) (hd : 0 ≤ st.dev) (hf : st.faults = [])
    (h1 : 1 ≤ st.next_uid) (h2 : st.next_uid ≤ 65534) (hts : a.timestamp < 4294967295)
    (ifname q_host : Option (List Char)) (q_rem_port : Nat) (q_int_client : List Char)
    (q_int_port : Nat) (q_proto : Int) (buf : List Char) (desc_len t0 saddr0 daddr0 : Nat)
    (hmatch : find_pinhole_match (toInt32 q_proto) (toUInt16 q_rem_port)
      (find_pinhole_saddr cfg q_host saddr0) (toUInt16 q_int_port)
      ((cfg.inet_pton q_int_client).getD daddr0) (rule_of cfg st.next_uid a) = true)
    (hfresh : ∀ x ∈ st.rules, find_hit (toInt32 q_proto) (toUInt16 q_rem_port)
      (find_pinhole_saddr cfg q_host saddr0) (toUInt16 q_int_port)
      ((cfg.inet_pton q_int_client).getD daddr0) x = false)
    (b : InfoBuffers) (rem_hostlen int_clientlen desclen : Nat)
    (hinfo : ∀ x ∈ st.rules, info_hit cfg st.next_uid.toNat x = false)
    (hrem : b.rem_host = none
      ∨ (cfg.inet_ntop (rule_of cfg st.next_uid a).src.addr rem_hostlen).isSome = true)
    (hint : b.int_client = none
      ∨ (cfg.inet_ntop (rule_of cfg st.next_uid a).dst.addr int_clientlen).isSome = true) :
    (add_pinhole_args cfg st a).1 = st.next_uid
    ∧ (∃ r, (add_pinhole_args cfg st a).2.rules = st.rules ++ [r]
        ∧ r.label = label_front st.next_uid a.timestamp
            ++ a.desc.take (cfg.PF_RULE_LABEL_SIZE - 1
                - (label_front st.next_uid a.timestamp).length)
        ∧ sscanf_SKIPDESC r.label = Scan.two st.next_uid a.timestamp)
    ∧ (find_pinhole cfg (add_pinhole_args cfg st a).2 ifname q_host q_rem_port q_int_client
        q_int_port q_proto (some buf) desc_len (some t0) saddr0 daddr0).1
        = ⟨st.next_uid,
           some (strlcpy buf (a.desc.take (cfg.PF_RULE_LABEL_SIZE - 1
             - (label_front st.next_uid a.timestamp).length)) desc_len),
           some a.timestamp⟩
    ∧ (∃ b1, (get_pinhole_info cfg (add_pinhole_args cfg st a).2 st.next_uid.toNat rem_hostlen
          int_clientlen desclen b).1 = some (0, b1)
        ∧ b1.desc = b.desc.map (fun old => strlcpy old (a.desc.take
            (cfg.PF_RULE_LABEL_SIZE - 1 - (label_front st.next_uid a.timestamp).length)) desclen)
        ∧ b1.timestamp = b.timestamp.map (fun _ => a.timestamp))
    ∧ (cfg.PF_RULE_LABEL_SIZE ≤ desc_len →
        strlcpy buf (a.desc.take (cfg.PF_RULE_LABEL_SIZE - 1
            - (label_front st.next_uid a.timestamp).length)) desc_len
          = a.desc.take (cfg.PF_RULE_LABEL_SIZE - 1
            - (label_front st.next_uid a.timestamp).length)) := by
  obtain ⟨n, hn⟩ : ∃ n : Nat, st.next_uid = (n : Int) := ⟨st.next_uid.toNat, by omega⟩
  rw [hn] at hmatch hinfo hrem hint ⊢
  simp only [Int.toNat_ofNat] at hinfo ⊢
  have hn2 : n < 100000 := by omega
  have hn3 : n < 65536 := by omega
  have hts2 : a.timestamp < 4294967296 := by omega
  obtain ⟨hlab, hcopy⟩ := rule_of_label_kept cfg n a hL hn2 hts2
  have hscan : sscanf_SKIPDESC (rule_of cfg n a).label = Scan.two n a.timestamp := by
    rw [hlab]; exact sscanf_SKIPDESC_canon n _ _ (by omega) hts2
  have hadd := add_pinhole_ok cfg st a hd hf
  rw [hn] at hadd
  rw [hadd]
  simp only []
  refine ⟨trivial, ⟨rule_of cfg n a, rfl, ?_, hscan⟩, ?_, ?_, ?_⟩
  · rw [hlab, canon_eq]
  · rw [find_pinhole_eq cfg _ _ _ _ _ _ _ _ _ _ _ _ (by simpa using hd) (by simpa using hf)]
    simp only []
    rw [find_in_append_miss _ _ _ _ _ _ _ _ _ _ hfresh]
    simp only [find_in, hmatch, hscan, if_true, Option.map_some']
    rw [hlab, find_pinhole_desc_canon]
  · have hhit : info_hit cfg n (rule_of cfg n a) = true := by
      simp only [info_hit, hcopy, strsep_space_canon, label_start_eq cfg n hL hn3, decide_True]
    have hloop := get_pinhole_info_loop_spec cfg n rem_hostlen int_clientlen desclen b
      (rule_of cfg n a) [] hhit st.rules []
      { st with rules := st.rules ++ [rule_of cfg n a], ticket := st.ticket + 2
                next_uid := advance_uid n } hf (by simp) hinfo
    have hlabel := get_pinhole_info_label_canon a.timestamp
      (a.desc.take (cfg.PF_RULE_LABEL_SIZE - 1 - (label_front n a.timestamp).length))
      b.desc desclen b.timestamp hts2
    obtain ⟨b1, hb1, hdesc, htime, _⟩ := get_pinhole_info_fill_ok cfg (rule_of cfg n a)
      (some ("ts-".toList ++ (fmt_u a.timestamp ++ (": ".toList ++ a.desc.take
        (cfg.PF_RULE_LABEL_SIZE - 1 - (label_front n a.timestamp).length)))))
      rem_hostlen int_clientlen desclen b _ _ hrem hint hlabel
    refine ⟨b1, ?_, hdesc, htime⟩
    have hd2 : ¬ st.dev < 0 := not_lt.2 hd
    simp only [get_pinhole_info, hd2, if_false]
    rw [DIOCGETRULES_ok _ (by simpa using hf)]
    simp only [List.length_append, List.length_singleton, List.length_nil, List.length_cons,
      List.nil_append, List.length_append] at hloop ⊢
    rw [hloop, hcopy, strsep_space_canon]
    exact hb1
  · intro hdl
    have hplen := label_front_length n a.timestamp 5 (by decide) (by norm_num; omega) hts2
    simp only [strlcpy]
    rw [if_neg (by omega), List.take_of_length_le]
    rw [List.length_take]
    omega

/-- Witness of `label_round_trip`: the scenario (id 1, timestamp 1000,
description `cam`) on the start-up state. -/
theorem label_round_trip_witness :
    (find_pinhole sample_cfg (add_pinhole_args sample_cfg (State.init 3 []) sample_args).2 none
        sample_args.rem_host sample_args.rem_port sample_args.int_client sample_args.int_port
        sample_args.proto (some []) 64 (some 0) 0 0).1
      = ⟨1, some "cam".toList, some 1000⟩
    ∧ ∃ b1, (get_pinhole_info sample_cfg
          (add_pinhole_args sample_cfg (State.init 3 []) sample_args).2 1 64 64 64
          ⟨none, some 0, none, some 0, some 0, some [], some 0, some 0, some 0⟩).1 = some (0, b1)
        ∧ b1.desc = some "cam".toList ∧ b1.timestamp = some 1000 :=
  (fun h => ⟨h.2.2.1, h.2.2.2.1⟩)
    (label_round_trip sample_cfg (by decide) (State.init 3 []) sample_args (by decide) rfl
      (by decide) (by decide) (by decide) none sample_args.rem_host sample_args.rem_port
      sample_args.int_client sample_args.int_port sample_args.proto [] 64 0 0 0
      (by decide) (by intro x hx; cases hx)
      ⟨none, some 0, none, some 0, some 0, some [], some 0, some 0, some 0⟩ 64 64 64
      (by intro x hx; cases hx) (Or.inl rfl) (Or.inl rfl))

/-- When the first colon ends the label, `find_pinhole` copies what lies behind
the terminating NUL (here the interface name of a label that fills its array). -/
theorem find_pinhole_desc_last_colon :
    find_pinhole_desc "pinhole-1 ts-5:".toList "em0".toList (some []) 64
      = some "em0".toList := by
  decide

end PfPinhole
